import Mathlib

/-!
# Verification of the editable-grid mutation engine of CSV-DataTools

This development embeds the core of
`src/py/DATAPROCESS/FUNCTIONS/editable_table.py` (class `EditableTable`):
the grid store (a shallow model of the `QTableWidget` cell/header state that
the class manipulates), the five command kinds with their `undo`/`redo`
replay, the bounded undo/redo history stacks, the clipboard-paste parser,
and the column-selection-order tracker.

Cells are modelled as `Option String` (a `QTableWidgetItem` is either absent
or holds a text); reading an absent or out-of-range cell yields `""`,
matching `item.text() if item else ""` used throughout the source.
-/

set_option maxRecDepth 4000

namespace CsvDataTools

/-! ## List primitives

Total get/set/insert/erase on lists with an explicit default element,
mirroring how the Qt table model behaves at its boundaries: reads outside
the populated region return the default, `insert` beyond the end and
`erase` beyond the end are no-ops (Qt's `insertRow`/`removeRow` reject
out-of-range indices). -/

/-- Read index `n`, returning `d` when out of range. -/
def lget {α : Type} (l : List α) (n : Nat) (d : α) : α :=
  match l, n with
  | [], _ => d
  | a :: _, 0 => a
  | _ :: l, n + 1 => lget l n d

/-- Write index `n`, padding with `d` when the list is shorter than `n`. -/
def lset {α : Type} (d : α) (l : List α) (n : Nat) (v : α) : List α :=
  match l, n with
  | [], 0 => [v]
  | [], n + 1 => d :: lset d [] n v
  | _ :: l, 0 => v :: l
  | a :: l, n + 1 => a :: lset d l n v

/-- Insert `v` at index `n`; no-op when `n` exceeds the length. -/
def linsert {α : Type} (l : List α) (n : Nat) (v : α) : List α :=
  match l, n with
  | l, 0 => v :: l
  | [], _ + 1 => []
  | a :: l, n + 1 => a :: linsert l n v

/-- Remove index `n`; no-op when `n` is out of range. -/
def lerase {α : Type} (l : List α) (n : Nat) : List α :=
  match l, n with
  | [], _ => []
  | _ :: l, 0 => l
  | a :: l, n + 1 => a :: lerase l n

theorem lget_nil {α : Type} (n : Nat) (d : α) : lget [] n d = d := by
  cases n <;> rfl

theorem lget_cons_succ {α : Type} (a : α) (l : List α) (n : Nat) (d : α) :
    lget (a :: l) (n + 1) d = lget l n d := rfl

theorem lget_of_length_le {α : Type} (l : List α) (n : Nat) (d : α)
    (h : l.length ≤ n) : lget l n d = d := by
  induction l generalizing n with
  | nil => exact lget_nil n d
  | cons a l ih =>
    cases n with
    | zero => simp at h
    | succ n => exact ih n (by simpa using h)

theorem lget_lset_eq {α : Type} (d : α) (l : List α) (n m : Nat) (v : α) :
    lget (lset d l n v) m d = if m = n then v else lget l m d := by
  induction l generalizing n m with
  | nil =>
    induction n generalizing m with
    | zero =>
      cases m with
      | zero => simp [lset, lget]
      | succ m => simp [lset, lget, lget_nil]
    | succ n ih =>
      cases m with
      | zero => simp [lset, lget]
      | succ m => simpa [lset, lget] using ih m
  | cons a l ih =>
    cases n with
    | zero =>
      cases m with
      | zero => simp [lset, lget]
      | succ m => simp [lset, lget]
    | succ n =>
      cases m with
      | zero => simp [lset, lget]
      | succ m => simpa [lset, lget] using ih n m

theorem lget_linsert {α : Type} (l : List α) (n m : Nat) (d : α) :
    lget (linsert l n d) m d =
      if m < n then lget l m d else if m = n then d else lget l (m - 1) d := by
  induction n generalizing l m with
  | zero =>
    cases m with
    | zero => simp [linsert, lget]
    | succ m => simp [linsert, lget]
  | succ n ih =>
    cases l with
    | nil =>
      simp only [linsert]
      split
      · exact (lget_nil m d).trans (by rw [lget_nil])
      · split
        · exact lget_nil m d
        · exact (lget_nil m d).trans (by rw [lget_nil])
    | cons a l =>
      cases m with
      | zero => simp [linsert, lget]
      | succ m =>
        simp only [linsert, lget_cons_succ, ih l m]
        rcases Nat.lt_trichotomy m n with h | h | h
        · simp [h, Nat.succ_lt_succ h]
        · simp [h]
        · have h1 : ¬ m < n := Nat.not_lt.mpr (Nat.le_of_lt h)
          have h2 : m ≠ n := Nat.ne_of_gt h
          have h3 : ¬ m + 1 < n + 1 := by omega
          have h4 : m + 1 ≠ n + 1 := by omega
          have h5 : 1 ≤ m := by omega
          simp only [h1, h2, h3, h4, if_false]
          cases m with
          | zero => omega
          | succ m => simp [lget_cons_succ]

theorem lget_lerase {α : Type} (l : List α) (n m : Nat) (d : α) :
    lget (lerase l n) m d = if m < n then lget l m d else lget l (m + 1) d := by
  induction l generalizing n m with
  | nil => simp [lerase, lget_nil]
  | cons a l ih =>
    cases n with
    | zero => simp [lerase, lget_cons_succ]
    | succ n =>
      cases m with
      | zero => simp [lerase, lget]
      | succ m =>
        simp only [lerase, lget_cons_succ, ih n m]
        rcases Nat.lt_or_ge m n with h | h
        · simp [h, Nat.succ_lt_succ h]
        · have h1 : ¬ m < n := Nat.not_lt.mpr h
          have h2 : ¬ m + 1 < n + 1 := by omega
          simp [h1, h2]

theorem length_lset {α : Type} (d : α) (l : List α) (n : Nat) (v : α) :
    (lset d l n v).length = max l.length (n + 1) := by
  induction l generalizing n with
  | nil =>
    induction n with
    | zero => simp [lset]
    | succ n ih => simp [lset, ih]
  | cons a l ih =>
    cases n with
    | zero => simp [lset]
    | succ n =>
      simp [lset, ih]
      omega

theorem length_linsert_of_le {α : Type} (l : List α) (n : Nat) (v : α)
    (h : n ≤ l.length) : (linsert l n v).length = l.length + 1 := by
  induction l generalizing n with
  | nil =>
    cases n with
    | zero => simp [linsert]
    | succ n => simp at h
  | cons a l ih =>
    cases n with
    | zero => simp [linsert]
    | succ n => simp [linsert, ih n (by simpa using h)]

theorem linsert_of_length_lt {α : Type} (l : List α) (n : Nat) (v : α)
    (h : l.length < n) : linsert l n v = l := by
  induction l generalizing n with
  | nil =>
    cases n with
    | zero => simp at h
    | succ n => rfl
  | cons a l ih =>
    cases n with
    | zero => simp at h
    | succ n => simp [linsert, ih n (by simpa using h)]

theorem length_lerase_of_lt {α : Type} (l : List α) (n : Nat)
    (h : n < l.length) : (lerase l n).length = l.length - 1 := by
  induction l generalizing n with
  | nil => simp at h
  | cons a l ih =>
    cases n with
    | zero => simp [lerase]
    | succ n =>
      have h' : n < l.length := by simpa using h
      have := ih n h'
      simp [lerase, this]
      omega

theorem lerase_of_length_le {α : Type} (l : List α) (n : Nat)
    (h : l.length ≤ n) : lerase l n = l := by
  induction l generalizing n with
  | nil => cases n <;> rfl
  | cons a l ih =>
    cases n with
    | zero => simp at h
    | succ n => simp [lerase, ih n (by simpa using h)]

theorem lget_append {α : Type} (l l' : List α) (n : Nat) (d : α) :
    lget (l ++ l') n d = if n < l.length then lget l n d else lget l' (n - l.length) d := by
  induction l generalizing n with
  | nil => simp [lget_nil]
  | cons a l ih =>
    cases n with
    | zero => simp [lget]
    | succ n =>
      simp only [List.cons_append, lget_cons_succ, ih n]
      by_cases h : n < l.length
      · simp [h, Nat.succ_lt_succ h]
      · have h2 : ¬ n + 1 < l.length + 1 := by omega
        simp [h, h2, List.length_cons]

theorem lget_replicate {α : Type} (k n : Nat) (d : α) :
    lget (List.replicate k d) n d = d := by
  induction k generalizing n with
  | zero => simp [List.replicate, lget_nil]
  | succ k ih =>
    cases n with
    | zero => simp [List.replicate, lget]
    | succ n => simpa [List.replicate, lget_cons_succ] using ih n

theorem lget_take {α : Type} (l : List α) (k n : Nat) (d : α) :
    lget (l.take k) n d = if n < k then lget l n d else d := by
  induction l generalizing k n with
  | nil => simp [lget_nil]
  | cons a l ih =>
    cases k with
    | zero => simp [lget_nil]
    | succ k =>
      cases n with
      | zero => simp [lget]
      | succ n =>
        simp only [List.take_succ_cons, lget_cons_succ, ih k n]
        by_cases h : n < k
        · simp [h, Nat.succ_lt_succ h]
        · have h2 : ¬ n + 1 < k + 1 := by omega
          simp [h, h2]

theorem lget_map {α β : Type} (f : α → β) (l : List α) (n : Nat) (hn : n < l.length)
    (d : α) (d' : β) : lget (l.map f) n d' = f (lget l n d) := by
  induction l generalizing n with
  | nil => simp at hn
  | cons a l ih =>
    cases n with
    | zero => simp [lget]
    | succ n => simpa [lget_cons_succ] using ih n (by simpa using hn)

theorem lget_range_map {α : Type} (f : Nat → α) (k n : Nat) (hn : n < k) (d : α) :
    lget ((List.range k).map f) n d = f n := by
  rw [lget_map f _ n (by simpa using hn) 0 d]
  congr 1
  induction k generalizing n with
  | zero => omega
  | succ k ih =>
    rw [List.range_succ]
    rw [lget_append]
    by_cases h : n < k
    · simp only [List.length_range, h, if_true]
      exact ih n h
    · have : n = k := by omega
      subst this
      simp [lget]

/-! ## Grid store

`Table` models the cell/header state of the `QTableWidget` underlying
`EditableTable`: a row count and column count, sparse items per cell
(`Option String`), and per-column header items.  Qt stores no item outside
the current `rowCount × columnCount` window, so re-dimensioning drops
anything beyond the kept region. -/

/-- A cell item: `none` when no `QTableWidgetItem` is present. -/
abbrev Cell := Option String

structure Table where
  /-- The rows of cell items; the row count is the length of this list. -/
  cells : List (List Cell)
  /-- Per-column horizontal header items. -/
  headers : List Cell
  /-- The column count (`columnCount()`), independent of row contents. -/
  ncols : Nat
deriving DecidableEq, Repr

namespace Table

def rowCount (t : Table) : Nat := t.cells.length

def colCount (t : Table) : Nat := t.ncols

/-- `table.item(r, c)`: the stored item, `none` when out of range or absent. -/
def cellItem (t : Table) (r c : Nat) : Cell :=
  if r < t.rowCount ∧ c < t.ncols then lget (lget t.cells r []) c none else none

/-- The text read from a cell: `item.text() if item else ""` in the source;
an out-of-range read also yields the empty string. -/
def content (t : Table) (r c : Nat) : String :=
  (t.cellItem r c).getD ""

/-- `table.setItem(r, c, QTableWidgetItem(s))` (also covers
`item.setText(s)` on an existing item): writes when in range, no-op
otherwise (Qt's `QTableModel::setItem` rejects out-of-range indices). -/
def setCell (t : Table) (r c : Nat) (s : String) : Table :=
  if r < t.rowCount ∧ c < t.ncols then
    { t with cells := lset [] t.cells r (lset none (lget t.cells r []) c (some s)) }
  else t

/-- `table.insertRow(r)`: inserts an item-less row at `r`; Qt rejects
`r > rowCount()` (the `linsert` primitive already no-ops there). -/
def insertRowAt (t : Table) (r : Nat) : Table :=
  { t with cells := linsert t.cells r [] }

/-- `table.removeRow(r)`: no-op when `r` is out of range. -/
def removeRowAt (t : Table) (r : Nat) : Table :=
  { t with cells := lerase t.cells r }

/-- `table.insertColumn(c)`: shifts cells and header items right of `c`;
Qt rejects `c > columnCount()`. The fresh column has no items and no
header item. -/
def insertColumnAt (t : Table) (c : Nat) : Table :=
  if c ≤ t.ncols then
    { cells := t.cells.map (fun row => linsert row c none),
      headers := linsert t.headers c none,
      ncols := t.ncols + 1 }
  else t

/-- `table.removeColumn(c)`: no-op when `c` is out of range. -/
def removeColumnAt (t : Table) (c : Nat) : Table :=
  if c < t.ncols then
    { cells := t.cells.map (fun row => lerase row c),
      headers := lerase t.headers c,
      ncols := t.ncols - 1 }
  else t

/-- `table.setRowCount(n)`: keeps the first `n` rows and appends item-less
rows as needed. -/
def setRowCount (t : Table) (n : Nat) : Table :=
  { t with cells := t.cells.take n ++ List.replicate (n - t.rowCount) ([] : List Cell) }

/-- `table.setColumnCount(n)`: keeps the items and header items of the
first `min n columnCount` columns (Qt holds no items beyond the current
column count) and sets the count to `n`. -/
def setColumnCount (t : Table) (n : Nat) : Table :=
  { cells := t.cells.map (List.take (min n t.ncols)),
    headers := t.headers.take (min n t.ncols),
    ncols := n }

/-- `table.horizontalHeaderItem(c)`: `none` when out of range or absent. -/
def headerItem (t : Table) (c : Nat) : Cell :=
  if c < t.ncols then lget t.headers c none else none

/-- `table.setHorizontalHeaderItem(c, QTableWidgetItem(s))`: no-op when out
of range. -/
def setHeaderItem (t : Table) (c : Nat) (s : String) : Table :=
  if c < t.ncols then { t with headers := lset none t.headers c (some s) }
  else t

/-- The header text the source associates with column `c`:
`header_item.text() if header_item else f"列{col+1}"` (used both by
`delete_column_at` when snapshotting and by `rename_column`). -/
def headerText (t : Table) (c : Nat) : String :=
  match t.headerItem c with
  | some s => s
  | none => "列" ++ toString (c + 1)

end Table

/-! ### Content and dimension lemmas for the grid operations -/

namespace Table

theorem content_out_of_range (t : Table) (r c : Nat)
    (h : ¬ (r < t.rowCount ∧ c < t.ncols)) : t.content r c = "" := by
  simp [content, cellItem, h]

theorem rowCount_setCell (t : Table) (r c : Nat) (s : String) :
    (t.setCell r c s).rowCount = t.rowCount := by
  unfold setCell
  split
  · next h =>
    simp only [rowCount] at h ⊢
    simp only [length_lset]
    omega
  · rfl

theorem ncols_setCell (t : Table) (r c : Nat) (s : String) :
    (t.setCell r c s).ncols = t.ncols := by
  unfold setCell; split <;> rfl

theorem headers_setCell (t : Table) (r c : Nat) (s : String) :
    (t.setCell r c s).headers = t.headers := by
  unfold setCell; split <;> rfl

theorem cellItem_setCell (t : Table) (r c : Nat) (s : String) (r' c' : Nat) :
    (t.setCell r c s).cellItem r' c' =
      if r' = r ∧ c' = c ∧ r < t.rowCount ∧ c < t.ncols then some s
      else t.cellItem r' c' := by
  unfold setCell
  split
  · next hin =>
    simp only [rowCount] at hin
    simp only [cellItem, rowCount, length_lset]
    have hmax : max t.cells.length (r + 1) = t.cells.length := by omega
    rw [hmax, lget_lset_eq, apply_ite (fun l => lget l c' none), lget_lset_eq]
    split_ifs <;> first | rfl | (subst_vars; rfl) | (exfalso; omega)
  · next hin =>
    simp only [rowCount] at hin
    rw [if_neg (by simp only [rowCount]; intro h; exact hin ⟨h.2.2.1, h.2.2.2⟩)]

theorem content_setCell (t : Table) (r c : Nat) (s : String) (r' c' : Nat) :
    (t.setCell r c s).content r' c' =
      if r' = r ∧ c' = c ∧ r < t.rowCount ∧ c < t.ncols then s
      else t.content r' c' := by
  unfold content
  rw [cellItem_setCell]
  split <;> rfl

theorem cellItem_eq_none_of (t : Table) (r c : Nat)
    (h : ¬ (r < t.rowCount ∧ c < t.ncols)) : t.cellItem r c = none := by
  unfold cellItem
  rw [if_neg h]

theorem rowCount_insertRowAt_of_le (t : Table) (r : Nat) (h : r ≤ t.rowCount) :
    (t.insertRowAt r).rowCount = t.rowCount + 1 := by
  simp only [insertRowAt, rowCount] at h ⊢
  exact length_linsert_of_le _ _ _ h

theorem insertRowAt_of_gt (t : Table) (r : Nat) (h : t.rowCount < r) :
    t.insertRowAt r = t := by
  simp only [rowCount] at h
  simp [insertRowAt, linsert_of_length_lt _ _ _ h]

theorem ncols_insertRowAt (t : Table) (r : Nat) : (t.insertRowAt r).ncols = t.ncols := rfl

theorem headers_insertRowAt (t : Table) (r : Nat) :
    (t.insertRowAt r).headers = t.headers := rfl

theorem cellItem_insertRowAt (t : Table) (r : Nat) (h : r ≤ t.rowCount) (r' c' : Nat) :
    (t.insertRowAt r).cellItem r' c' =
      if r' < r then t.cellItem r' c'
      else if r' = r then none
      else t.cellItem (r' - 1) c' := by
  simp only [rowCount] at h
  unfold insertRowAt cellItem rowCount
  simp only
  rw [length_linsert_of_le _ _ _ h, lget_linsert,
      apply_ite (fun l => lget l c' none),
      apply_ite (fun l => lget l c' none), lget_nil]
  split_ifs <;> first | rfl | (exfalso; omega)

theorem content_insertRowAt (t : Table) (r : Nat) (h : r ≤ t.rowCount) (r' c' : Nat) :
    (t.insertRowAt r).content r' c' =
      if r' < r then t.content r' c'
      else if r' = r then ""
      else t.content (r' - 1) c' := by
  unfold content
  rw [cellItem_insertRowAt t r h]
  split_ifs <;> rfl

theorem rowCount_removeRowAt_of_lt (t : Table) (r : Nat) (h : r < t.rowCount) :
    (t.removeRowAt r).rowCount = t.rowCount - 1 := by
  simp only [rowCount] at h
  simp only [removeRowAt, rowCount]
  exact length_lerase_of_lt _ _ h

theorem removeRowAt_of_ge (t : Table) (r : Nat) (h : t.rowCount ≤ r) :
    t.removeRowAt r = t := by
  simp only [rowCount] at h
  simp [removeRowAt, lerase_of_length_le _ _ h]

theorem ncols_removeRowAt (t : Table) (r : Nat) : (t.removeRowAt r).ncols = t.ncols := rfl

theorem headers_removeRowAt (t : Table) (r : Nat) :
    (t.removeRowAt r).headers = t.headers := rfl

theorem cellItem_removeRowAt (t : Table) (r : Nat) (h : r < t.rowCount) (r' c' : Nat) :
    (t.removeRowAt r).cellItem r' c' =
      if r' < r then t.cellItem r' c' else t.cellItem (r' + 1) c' := by
  simp only [rowCount] at h
  unfold removeRowAt cellItem rowCount
  simp only
  rw [length_lerase_of_lt _ _ h, lget_lerase,
      apply_ite (fun l => lget l c' none)]
  split_ifs <;> first | rfl | (exfalso; omega)

theorem content_removeRowAt (t : Table) (r : Nat) (h : r < t.rowCount) (r' c' : Nat) :
    (t.removeRowAt r).content r' c' =
      if r' < r then t.content r' c' else t.content (r' + 1) c' := by
  unfold content
  rw [cellItem_removeRowAt t r h]
  split_ifs <;> rfl

theorem ncols_insertColumnAt_of_le (t : Table) (c : Nat) (h : c ≤ t.ncols) :
    (t.insertColumnAt c).ncols = t.ncols + 1 := by
  simp [insertColumnAt, h]

theorem insertColumnAt_of_gt (t : Table) (c : Nat) (h : t.ncols < c) :
    t.insertColumnAt c = t := by
  simp [insertColumnAt]
  omega

theorem rowCount_insertColumnAt (t : Table) (c : Nat) :
    (t.insertColumnAt c).rowCount = t.rowCount := by
  unfold insertColumnAt rowCount
  split <;> simp

theorem cellItem_insertColumnAt (t : Table) (c : Nat) (h : c ≤ t.ncols) (r' c' : Nat) :
    (t.insertColumnAt c).cellItem r' c' =
      if c' < c then t.cellItem r' c'
      else if c' = c then none
      else t.cellItem r' (c' - 1) := by
  unfold insertColumnAt cellItem rowCount
  rw [if_pos h]
  simp only [List.length_map]
  by_cases hr : r' < t.cells.length
  · rw [lget_map _ _ _ hr ([] : List Cell), lget_linsert]
    split_ifs <;> first | rfl | (exfalso; omega)
  · split_ifs <;> first | rfl | (exfalso; omega)

theorem content_insertColumnAt (t : Table) (c : Nat) (h : c ≤ t.ncols) (r' c' : Nat) :
    (t.insertColumnAt c).content r' c' =
      if c' < c then t.content r' c'
      else if c' = c then ""
      else t.content r' (c' - 1) := by
  unfold content
  rw [cellItem_insertColumnAt t c h]
  split_ifs <;> rfl

theorem ncols_removeColumnAt_of_lt (t : Table) (c : Nat) (h : c < t.ncols) :
    (t.removeColumnAt c).ncols = t.ncols - 1 := by
  simp [removeColumnAt, h]

theorem removeColumnAt_of_ge (t : Table) (c : Nat) (h : t.ncols ≤ c) :
    t.removeColumnAt c = t := by
  simp [removeColumnAt]
  omega

theorem rowCount_removeColumnAt (t : Table) (c : Nat) :
    (t.removeColumnAt c).rowCount = t.rowCount := by
  unfold removeColumnAt rowCount
  split <;> simp

theorem cellItem_removeColumnAt (t : Table) (c : Nat) (h : c < t.ncols) (r' c' : Nat) :
    (t.removeColumnAt c).cellItem r' c' =
      if c' < c then t.cellItem r' c' else t.cellItem r' (c' + 1) := by
  unfold removeColumnAt cellItem rowCount
  rw [if_pos h]
  simp only [List.length_map]
  by_cases hr : r' < t.cells.length
  · rw [lget_map _ _ _ hr ([] : List Cell), lget_lerase]
    split_ifs <;> first | rfl | (exfalso; omega)
  · split_ifs <;> first | rfl | (exfalso; omega)

theorem content_removeColumnAt (t : Table) (c : Nat) (h : c < t.ncols) (r' c' : Nat) :
    (t.removeColumnAt c).content r' c' =
      if c' < c then t.content r' c' else t.content r' (c' + 1) := by
  unfold content
  rw [cellItem_removeColumnAt t c h]
  split_ifs <;> rfl

theorem rowCount_setRowCount (t : Table) (n : Nat) :
    (t.setRowCount n).rowCount = n := by
  simp only [setRowCount, rowCount]
  simp
  omega

theorem ncols_setRowCount (t : Table) (n : Nat) : (t.setRowCount n).ncols = t.ncols := rfl

theorem headers_setRowCount (t : Table) (n : Nat) :
    (t.setRowCount n).headers = t.headers := rfl

theorem cellItem_setRowCount (t : Table) (n : Nat) (r' c' : Nat) :
    (t.setRowCount n).cellItem r' c' =
      if r' < n then t.cellItem r' c' else none := by
  unfold setRowCount cellItem rowCount
  simp only [List.length_append, List.length_take, List.length_replicate]
  rw [lget_append, apply_ite (fun l => lget l c' none)]
  simp only [List.length_take]
  rw [lget_take, apply_ite (fun l => lget l c' none), lget_replicate, lget_nil]
  split_ifs <;> first | rfl | (exfalso; omega)

theorem content_setRowCount_grow (t : Table) (n : Nat) (h : t.rowCount ≤ n) (r' c' : Nat) :
    (t.setRowCount n).content r' c' = t.content r' c' := by
  unfold content
  rw [cellItem_setRowCount]
  split_ifs with hr
  · rfl
  · rw [cellItem_eq_none_of t r' c' (by simp only [rowCount] at h ⊢; omega)]

theorem ncols_setColumnCount (t : Table) (n : Nat) :
    (t.setColumnCount n).ncols = n := rfl

theorem rowCount_setColumnCount (t : Table) (n : Nat) :
    (t.setColumnCount n).rowCount = t.rowCount := by
  simp [setColumnCount, rowCount]

theorem cellItem_setColumnCount (t : Table) (n : Nat) (r' c' : Nat) :
    (t.setColumnCount n).cellItem r' c' =
      if c' < min n t.ncols then t.cellItem r' c' else none := by
  unfold setColumnCount cellItem rowCount
  simp only [List.length_map]
  by_cases hr : r' < t.cells.length
  · rw [lget_map _ _ _ hr ([] : List Cell), lget_take]
    split_ifs <;> first | rfl | (exfalso; omega)
  · split_ifs <;> first | rfl | (exfalso; omega)

theorem content_setColumnCount_grow (t : Table) (n : Nat) (h : t.ncols ≤ n) (r' c' : Nat) :
    (t.setColumnCount n).content r' c' = t.content r' c' := by
  unfold content
  rw [cellItem_setColumnCount]
  rw [Nat.min_eq_right h]
  split_ifs with hc
  · rfl
  · rw [cellItem_eq_none_of t r' c' (by omega)]

theorem headerItem_setHeaderItem (t : Table) (c : Nat) (s : String) (c' : Nat) :
    (t.setHeaderItem c s).headerItem c' =
      if c' = c ∧ c < t.ncols then some s else t.headerItem c' := by
  unfold setHeaderItem headerItem
  split
  · next h =>
    simp only
    rw [lget_lset_eq]
    split_ifs <;> first | rfl | (exfalso; omega)
  · next h =>
    split_ifs <;> first | rfl | (exfalso; omega)

theorem headerItem_insertColumnAt (t : Table) (c : Nat) (h : c ≤ t.ncols) (c' : Nat) :
    (t.insertColumnAt c).headerItem c' =
      if c' < c then t.headerItem c'
      else if c' = c then none
      else t.headerItem (c' - 1) := by
  unfold insertColumnAt headerItem
  rw [if_pos h]
  simp only
  rw [lget_linsert]
  split_ifs <;> first | rfl | (exfalso; omega)

theorem headerItem_removeColumnAt (t : Table) (c : Nat) (h : c < t.ncols) (c' : Nat) :
    (t.removeColumnAt c).headerItem c' =
      if c' < c then t.headerItem c' else t.headerItem (c' + 1) := by
  unfold removeColumnAt headerItem
  rw [if_pos h]
  simp only
  rw [lget_lerase]
  split_ifs <;> first | rfl | (exfalso; omega)

theorem headerItem_setCell (t : Table) (r c : Nat) (s : String) (c' : Nat) :
    (t.setCell r c s).headerItem c' = t.headerItem c' := by
  unfold headerItem
  rw [headers_setCell, ncols_setCell]

theorem headerItem_insertRowAt (t : Table) (r : Nat) (c' : Nat) :
    (t.insertRowAt r).headerItem c' = t.headerItem c' := rfl

theorem headerItem_removeRowAt (t : Table) (r : Nat) (c' : Nat) :
    (t.removeRowAt r).headerItem c' = t.headerItem c' := rfl

end Table

/-! ## Commands

The five `EditCommand` subclasses, ported as a sum type; `redo`/`undo`
transcribe each class's two methods. -/

inductive Command where
  | cellChange (row col : Nat) (oldText newText : String)
  | insertRow (row : Nat)
  | insertColumn (col : Nat)
  | deleteRow (row : Nat) (rowData : List String)
  | deleteColumn (col : Nat) (colData : List String) (headerText : String)
  | paste (startRow startCol : Nat) (oldData newData : List (List String))
deriving DecidableEq, Repr

/-- Writes the texts of `l` into row `r` from column `c` on, one guarded
`setItem`/`setText` per cell (the per-cell loops of `InsertRowCommand.redo`,
`DeleteRowCommand.undo` and `PasteCommand.undo`). -/
def writeRowCells (t : Table) (r c : Nat) : List String → Table
  | [] => t
  | s :: rest => writeRowCells (t.setCell r c s) r (c + 1) rest

/-- Column analogue of `writeRowCells` (loops of `InsertColumnCommand.redo`
and `DeleteColumnCommand.undo`). -/
def writeColCells (t : Table) (c r : Nat) : List String → Table
  | [] => t
  | s :: rest => writeColCells (t.setCell r c s) c (r + 1) rest

/-- One cell write of `PasteCommand.redo`: the `while` loops first grow
`rowCount`/`columnCount` until `(r, c)` is in range, then the cell is set. -/
def Table.pasteCell (t : Table) (r c : Nat) (s : String) : Table :=
  let t1 := if t.rowCount ≤ r then t.setRowCount (r + 1) else t
  let t2 := if t1.ncols ≤ c then t1.setColumnCount (c + 1) else t1
  t2.setCell r c s

/-- One row of `PasteCommand.redo`. -/
def pasteRowRedo (t : Table) (r c : Nat) : List String → Table
  | [] => t
  | s :: rest => pasteRowRedo (t.pasteCell r c s) r (c + 1) rest

/-- `PasteCommand.redo`: writes `new_data` cell-by-cell from
`(start_row, start_col)`, growing the grid as needed. -/
def pasteRedo (t : Table) (r c : Nat) : List (List String) → Table
  | [] => t
  | row :: rest => pasteRedo (pasteRowRedo t r c row) (r + 1) c rest

/-- `PasteCommand.undo`: writes `old_data` back over the same rectangle,
skipping out-of-range positions; the grid is never resized. -/
def pasteUndo (t : Table) (r c : Nat) : List (List String) → Table
  | [] => t
  | row :: rest => pasteUndo (writeRowCells t r c row) (r + 1) c rest

/-- Forward replay, transcribing each command class's `redo(self, table)`. -/
def Command.redo : Command → Table → Table
  | .cellChange r c _ new, t => t.setCell r c new
  | .insertRow r, t =>
      writeRowCells (t.insertRowAt r) r 0 (List.replicate (t.insertRowAt r).ncols "")
  | .insertColumn c, t =>
      writeColCells (t.insertColumnAt c) c 0 (List.replicate (t.insertColumnAt c).rowCount "")
  | .deleteRow r _, t => if r < t.rowCount then t.removeRowAt r else t
  | .deleteColumn c _ _, t => if c < t.ncols then t.removeColumnAt c else t
  | .paste sr sc _ new, t => pasteRedo t sr sc new

/-- Backward replay, transcribing each command class's `undo(self, table)`. -/
def Command.undo : Command → Table → Table
  | .cellChange r c old _, t => t.setCell r c old
  | .insertRow r, t => if r < t.rowCount then t.removeRowAt r else t
  | .insertColumn c, t => if c < t.ncols then t.removeColumnAt c else t
  | .deleteRow r data, t => writeRowCells (t.insertRowAt r) r 0 data
  | .deleteColumn c data h, t =>
      writeColCells ((t.insertColumnAt c).setHeaderItem c h) c 0 data
  | .paste sr sc old _, t => pasteUndo t sr sc old

/-- One row of the `old_data` snapshot taken by `paste_from_clipboard`:
the current text of each destination cell (empty when out of range). -/
def buildOldRow (t : Table) (r c : Nat) : List String → List String
  | [] => []
  | _ :: rest => t.content r c :: buildOldRow t r (c + 1) rest

/-- The `old_data` snapshot taken by `paste_from_clipboard`. -/
def buildOld (t : Table) (r c : Nat) : List (List String) → List (List String)
  | [] => []
  | row :: rest => buildOldRow t r c row :: buildOld t (r + 1) c rest

/-- The facts the public API establishes about a command at creation time
(`on_item_changed` / `delete_selected_items` / `cut_selection` create
in-range `CellChangeCommand`s recording the current text;
`insert_row_at` / `insert_column_at` pass an index at most the current
count; `delete_row_at` / `delete_column_at` snapshot the doomed line and,
for columns, the header text; `paste_from_clipboard` snapshots the
destination rectangle). -/
def Command.Valid : Command → Table → Prop
  | .cellChange r c old _, t => r < t.rowCount ∧ c < t.ncols ∧ t.content r c = old
  | .insertRow r, t => r ≤ t.rowCount
  | .insertColumn c, t => c ≤ t.ncols
  | .deleteRow r data, t =>
      r < t.rowCount ∧ data = (List.range t.ncols).map (fun c => t.content r c)
  | .deleteColumn c data h, t =>
      c < t.ncols ∧ data = (List.range t.rowCount).map (fun r => t.content r c) ∧
        h = t.headerText c
  | .paste sr sc old _new, t => old = buildOld t sr sc _new

instance (c : Command) (t : Table) : Decidable (c.Valid t) := by
  cases c <;> (unfold Command.Valid; infer_instance)

/-! ### Lemmas about the cell-writing loops -/

open Table

theorem rowCount_writeRowCells (t : Table) (r c : Nat) (l : List String) :
    (writeRowCells t r c l).rowCount = t.rowCount := by
  induction l generalizing t c with
  | nil => rfl
  | cons s rest ih =>
    simp only [writeRowCells]
    rw [ih, rowCount_setCell]

theorem ncols_writeRowCells (t : Table) (r c : Nat) (l : List String) :
    (writeRowCells t r c l).ncols = t.ncols := by
  induction l generalizing t c with
  | nil => rfl
  | cons s rest ih =>
    simp only [writeRowCells]
    rw [ih, ncols_setCell]

theorem headerItem_writeRowCells (t : Table) (r c : Nat) (l : List String) (c' : Nat) :
    (writeRowCells t r c l).headerItem c' = t.headerItem c' := by
  induction l generalizing t c with
  | nil => rfl
  | cons s rest ih =>
    simp only [writeRowCells]
    rw [ih, headerItem_setCell]

theorem content_writeRowCells_untouched (t : Table) (r c : Nat) (l : List String)
    (r' c' : Nat) (h : ¬ (r' = r ∧ c ≤ c' ∧ c' - c < l.length)) :
    (writeRowCells t r c l).content r' c' = t.content r' c' := by
  induction l generalizing t c with
  | nil => rfl
  | cons s rest ih =>
    simp only [writeRowCells]
    rw [ih _ (c + 1) (by
      intro hx
      apply h
      obtain ⟨h1, h2, h3⟩ := hx
      refine ⟨h1, by omega, ?_⟩
      simp only [List.length_cons]
      omega)]
    rw [content_setCell, if_neg (by
      intro hx
      apply h
      obtain ⟨h1, h2, _⟩ := hx
      refine ⟨h1, by omega, ?_⟩
      simp only [List.length_cons]
      omega)]

theorem content_writeRowCells_written (t : Table) (r c : Nat) (l : List String)
    (j : Nat) (hj : j < l.length) :
    (writeRowCells t r c l).content r (c + j) =
      if r < t.rowCount ∧ c + j < t.ncols then lget l j "" else t.content r (c + j) := by
  induction l generalizing t c j with
  | nil => simp at hj
  | cons s rest ih =>
    cases j with
    | zero =>
      simp only [writeRowCells]
      rw [content_writeRowCells_untouched _ _ _ _ _ _ (by omega)]
      rw [content_setCell]
      simp only [Nat.add_zero, lget, eq_self_iff_true, true_and]
    | succ j =>
      simp only [writeRowCells]
      have harith : c + (j + 1) = (c + 1) + j := by omega
      rw [harith, ih _ (c + 1) j (by simpa using hj)]
      rw [rowCount_setCell, ncols_setCell, content_setCell]
      simp only [lget_cons_succ]
      split_ifs <;> first | rfl | (exfalso; omega)

theorem rowCount_writeColCells (t : Table) (c r : Nat) (l : List String) :
    (writeColCells t c r l).rowCount = t.rowCount := by
  induction l generalizing t r with
  | nil => rfl
  | cons s rest ih =>
    simp only [writeColCells]
    rw [ih, rowCount_setCell]

theorem ncols_writeColCells (t : Table) (c r : Nat) (l : List String) :
    (writeColCells t c r l).ncols = t.ncols := by
  induction l generalizing t r with
  | nil => rfl
  | cons s rest ih =>
    simp only [writeColCells]
    rw [ih, ncols_setCell]

theorem headerItem_writeColCells (t : Table) (c r : Nat) (l : List String) (c' : Nat) :
    (writeColCells t c r l).headerItem c' = t.headerItem c' := by
  induction l generalizing t r with
  | nil => rfl
  | cons s rest ih =>
    simp only [writeColCells]
    rw [ih, headerItem_setCell]

theorem content_writeColCells_untouched (t : Table) (c r : Nat) (l : List String)
    (r' c' : Nat) (h : ¬ (c' = c ∧ r ≤ r' ∧ r' - r < l.length)) :
    (writeColCells t c r l).content r' c' = t.content r' c' := by
  induction l generalizing t r with
  | nil => rfl
  | cons s rest ih =>
    simp only [writeColCells]
    rw [ih _ (r + 1) (by
      intro hx
      apply h
      obtain ⟨h1, h2, h3⟩ := hx
      refine ⟨h1, by omega, ?_⟩
      simp only [List.length_cons]
      omega)]
    rw [content_setCell, if_neg (by
      intro hx
      apply h
      obtain ⟨h1, h2, _⟩ := hx
      refine ⟨h2, by omega, ?_⟩
      simp only [List.length_cons]
      omega)]

theorem content_writeColCells_written (t : Table) (c r : Nat) (l : List String)
    (j : Nat) (hj : j < l.length) :
    (writeColCells t c r l).content (r + j) c =
      if r + j < t.rowCount ∧ c < t.ncols then lget l j "" else t.content (r + j) c := by
  induction l generalizing t r j with
  | nil => simp at hj
  | cons s rest ih =>
    cases j with
    | zero =>
      simp only [writeColCells]
      rw [content_writeColCells_untouched _ _ _ _ _ _ (by omega)]
      rw [content_setCell]
      simp only [Nat.add_zero, lget, eq_self_iff_true, true_and]
    | succ j =>
      simp only [writeColCells]
      have harith : r + (j + 1) = (r + 1) + j := by omega
      rw [harith, ih _ (r + 1) j (by simpa using hj)]
      rw [rowCount_setCell, ncols_setCell, content_setCell]
      simp only [lget_cons_succ]
      split_ifs <;> first | rfl | (exfalso; omega)

/-! ### Lemmas about `PasteCommand`'s growing per-cell write -/

namespace Table

theorem rowCount_pasteCell (t : Table) (r c : Nat) (s : String) :
    (t.pasteCell r c s).rowCount = max t.rowCount (r + 1) := by
  unfold pasteCell
  simp only
  rw [rowCount_setCell]
  split_ifs <;>
    (try simp only [rowCount_setColumnCount, rowCount_setRowCount] at *) <;> omega

theorem ncols_pasteCell (t : Table) (r c : Nat) (s : String) :
    (t.pasteCell r c s).ncols = max t.ncols (c + 1) := by
  unfold pasteCell
  simp only
  rw [ncols_setCell]
  split_ifs <;>
    (try simp only [ncols_setColumnCount, ncols_setRowCount] at *) <;> omega

theorem content_pasteCell (t : Table) (r c : Nat) (s : String) (r' c' : Nat) :
    (t.pasteCell r c s).content r' c' =
      if r' = r ∧ c' = c then s else t.content r' c' := by
  unfold pasteCell
  simp only
  set t1 := if t.rowCount ≤ r then t.setRowCount (r + 1) else t with ht1
  set t2 := if t1.ncols ≤ c then t1.setColumnCount (c + 1) else t1 with ht2
  have hcont1 : ∀ a b : Nat, t1.content a b = t.content a b := by
    intro a b
    rw [ht1]
    split_ifs with h
    · exact content_setRowCount_grow t (r + 1) (by omega) a b
    · rfl
  have hrow1 : r < t1.rowCount := by
    rw [ht1]
    split_ifs with h
    · rw [rowCount_setRowCount]; omega
    · omega
  have hcont2 : ∀ a b : Nat, t2.content a b = t1.content a b := by
    intro a b
    rw [ht2]
    split_ifs with h
    · exact content_setColumnCount_grow t1 (c + 1) (by omega) a b
    · rfl
  have hrow2 : t2.rowCount = t1.rowCount := by
    rw [ht2]
    split_ifs with h
    · rw [rowCount_setColumnCount]
    · rfl
  have hcol2 : c < t2.ncols := by
    rw [ht2]
    split_ifs with h
    · rw [ncols_setColumnCount]; omega
    · omega
  rw [content_setCell]
  by_cases hrc : r' = r ∧ c' = c
  · rw [if_pos ⟨hrc.1, hrc.2, by omega, hcol2⟩, if_pos hrc]
  · rw [if_neg (by tauto), if_neg hrc, hcont2, hcont1]

end Table

theorem rowCount_pasteRowRedo_le (t : Table) (r c : Nat) (l : List String) :
    t.rowCount ≤ (pasteRowRedo t r c l).rowCount := by
  induction l generalizing t c with
  | nil => exact Nat.le_refl _
  | cons s rest ih =>
    simp only [pasteRowRedo]
    refine Nat.le_trans ?_ (ih _ (c + 1))
    rw [Table.rowCount_pasteCell]
    omega

theorem ncols_pasteRowRedo_le (t : Table) (r c : Nat) (l : List String) :
    t.ncols ≤ (pasteRowRedo t r c l).ncols := by
  induction l generalizing t c with
  | nil => exact Nat.le_refl _
  | cons s rest ih =>
    simp only [pasteRowRedo]
    refine Nat.le_trans ?_ (ih _ (c + 1))
    rw [Table.ncols_pasteCell]
    omega

theorem pasteRowRedo_inbounds (t : Table) (r c : Nat) (l : List String)
    (j : Nat) (hj : j < l.length) :
    r < (pasteRowRedo t r c l).rowCount ∧ c + j < (pasteRowRedo t r c l).ncols := by
  induction l generalizing t c j with
  | nil => simp at hj
  | cons s rest ih =>
    cases j with
    | zero =>
      simp only [pasteRowRedo]
      constructor
      · refine Nat.lt_of_lt_of_le ?_ (rowCount_pasteRowRedo_le _ _ _ _)
        rw [Table.rowCount_pasteCell]
        omega
      · refine Nat.lt_of_lt_of_le ?_ (ncols_pasteRowRedo_le _ _ _ _)
        rw [Table.ncols_pasteCell]
        omega
    | succ j =>
      simp only [pasteRowRedo]
      have harith : c + (j + 1) = (c + 1) + j := by omega
      rw [harith]
      exact ih _ (c + 1) j (by simpa using hj)

theorem content_pasteRowRedo_untouched (t : Table) (r c : Nat) (l : List String)
    (r' c' : Nat) (h : ¬ (r' = r ∧ c ≤ c' ∧ c' - c < l.length)) :
    (pasteRowRedo t r c l).content r' c' = t.content r' c' := by
  induction l generalizing t c with
  | nil => rfl
  | cons s rest ih =>
    simp only [pasteRowRedo]
    rw [ih _ (c + 1) (by
      intro hx
      apply h
      obtain ⟨h1, h2, h3⟩ := hx
      refine ⟨h1, by omega, ?_⟩
      simp only [List.length_cons]
      omega)]
    rw [Table.content_pasteCell, if_neg (by
      intro hx
      apply h
      obtain ⟨h1, h2⟩ := hx
      refine ⟨h1, by omega, ?_⟩
      simp only [List.length_cons]
      omega)]

theorem content_pasteRowRedo_written (t : Table) (r c : Nat) (l : List String)
    (j : Nat) (hj : j < l.length) :
    (pasteRowRedo t r c l).content r (c + j) = lget l j "" := by
  induction l generalizing t c j with
  | nil => simp at hj
  | cons s rest ih =>
    cases j with
    | zero =>
      simp only [pasteRowRedo]
      rw [content_pasteRowRedo_untouched _ _ _ _ _ _ (by omega)]
      rw [Table.content_pasteCell]
      simp [lget]
    | succ j =>
      simp only [pasteRowRedo]
      have harith : c + (j + 1) = (c + 1) + j := by omega
      rw [harith, ih _ (c + 1) j (by simpa using hj)]
      simp [lget_cons_succ]

theorem rowCount_pasteRedo_le (t : Table) (r c : Nat) (d : List (List String)) :
    t.rowCount ≤ (pasteRedo t r c d).rowCount := by
  induction d generalizing t r with
  | nil => exact Nat.le_refl _
  | cons row rest ih =>
    simp only [pasteRedo]
    exact Nat.le_trans (rowCount_pasteRowRedo_le _ _ _ _) (ih _ (r + 1))

theorem ncols_pasteRedo_le (t : Table) (r c : Nat) (d : List (List String)) :
    t.ncols ≤ (pasteRedo t r c d).ncols := by
  induction d generalizing t r with
  | nil => exact Nat.le_refl _
  | cons row rest ih =>
    simp only [pasteRedo]
    exact Nat.le_trans (ncols_pasteRowRedo_le _ _ _ _) (ih _ (r + 1))

theorem pasteRedo_inbounds (t : Table) (r c : Nat) (d : List (List String))
    (i j : Nat) (hi : i < d.length) (hj : j < (lget d i []).length) :
    r + i < (pasteRedo t r c d).rowCount ∧ c + j < (pasteRedo t r c d).ncols := by
  induction d generalizing t r i with
  | nil => simp at hi
  | cons row rest ih =>
    cases i with
    | zero =>
      simp only [pasteRedo]
      have hj' : j < row.length := by simpa [lget] using hj
      have hb := pasteRowRedo_inbounds t r c row j hj'
      constructor
      · exact Nat.lt_of_lt_of_le (by simpa using hb.1) (rowCount_pasteRedo_le _ _ _ _)
      · exact Nat.lt_of_lt_of_le hb.2 (ncols_pasteRedo_le _ _ _ _)
    | succ i =>
      simp only [pasteRedo]
      have harith : r + (i + 1) = (r + 1) + i := by omega
      rw [harith]
      exact ih _ (r + 1) i (by simpa using hi) (by simpa [lget_cons_succ] using hj)

theorem content_pasteRedo_untouched (t : Table) (r c : Nat) (d : List (List String))
    (r' c' : Nat)
    (h : ¬ (r ≤ r' ∧ r' - r < d.length ∧ c ≤ c' ∧ c' - c < (lget d (r' - r) []).length)) :
    (pasteRedo t r c d).content r' c' = t.content r' c' := by
  induction d generalizing t r with
  | nil => rfl
  | cons row rest ih =>
    simp only [pasteRedo]
    rw [ih _ (r + 1) (by
      intro hx
      apply h
      obtain ⟨h1, h2, h3, h4⟩ := hx
      refine ⟨by omega, by simp only [List.length_cons]; omega, h3, ?_⟩
      have harith : r' - r = (r' - (r + 1)) + 1 := by omega
      rw [harith, lget_cons_succ]
      exact h4)]
    rw [content_pasteRowRedo_untouched _ _ _ _ _ _ (by
      intro hx
      apply h
      obtain ⟨h1, h2, h3⟩ := hx
      subst h1
      refine ⟨by omega, by simp only [List.length_cons]; omega, h2, ?_⟩
      have harith : r' - r' = 0 := by omega
      rw [harith]
      simpa [lget] using h3)]

theorem content_pasteRedo_written (t : Table) (r c : Nat) (d : List (List String))
    (i j : Nat) (hi : i < d.length) (hj : j < (lget d i []).length) :
    (pasteRedo t r c d).content (r + i) (c + j) = lget (lget d i []) j "" := by
  induction d generalizing t r i with
  | nil => simp at hi
  | cons row rest ih =>
    cases i with
    | zero =>
      simp only [pasteRedo]
      have hj' : j < row.length := by simpa [lget] using hj
      rw [content_pasteRedo_untouched _ _ _ _ _ _ (by omega)]
      simp only [Nat.add_zero]
      rw [content_pasteRowRedo_written t r c row j hj']
      simp [lget]
    | succ i =>
      simp only [pasteRedo]
      have harith : r + (i + 1) = (r + 1) + i := by omega
      rw [harith, ih _ (r + 1) i (by simpa using hi) (by simpa [lget_cons_succ] using hj)]
      simp [lget_cons_succ]

theorem rowCount_pasteUndo (t : Table) (r c : Nat) (d : List (List String)) :
    (pasteUndo t r c d).rowCount = t.rowCount := by
  induction d generalizing t r with
  | nil => rfl
  | cons row rest ih =>
    simp only [pasteUndo]
    rw [ih, rowCount_writeRowCells]

theorem ncols_pasteUndo (t : Table) (r c : Nat) (d : List (List String)) :
    (pasteUndo t r c d).ncols = t.ncols := by
  induction d generalizing t r with
  | nil => rfl
  | cons row rest ih =>
    simp only [pasteUndo]
    rw [ih, ncols_writeRowCells]

theorem content_pasteUndo_untouched (t : Table) (r c : Nat) (d : List (List String))
    (r' c' : Nat)
    (h : ¬ (r ≤ r' ∧ r' - r < d.length ∧ c ≤ c' ∧ c' - c < (lget d (r' - r) []).length)) :
    (pasteUndo t r c d).content r' c' = t.content r' c' := by
  induction d generalizing t r with
  | nil => rfl
  | cons row rest ih =>
    simp only [pasteUndo]
    rw [ih _ (r + 1) (by
      intro hx
      apply h
      obtain ⟨h1, h2, h3, h4⟩ := hx
      refine ⟨by omega, by simp only [List.length_cons]; omega, h3, ?_⟩
      have harith : r' - r = (r' - (r + 1)) + 1 := by omega
      rw [harith, lget_cons_succ]
      exact h4)]
    rw [content_writeRowCells_untouched _ _ _ _ _ _ (by
      intro hx
      apply h
      obtain ⟨h1, h2, h3⟩ := hx
      subst h1
      refine ⟨by omega, by simp only [List.length_cons]; omega, h2, ?_⟩
      have harith : r' - r' = 0 := by omega
      rw [harith]
      simpa [lget] using h3)]

theorem content_pasteUndo_written (t : Table) (r c : Nat) (d : List (List String))
    (i j : Nat) (hi : i < d.length) (hj : j < (lget d i []).length) :
    (pasteUndo t r c d).content (r + i) (c + j) =
      if r + i < t.rowCount ∧ c + j < t.ncols then lget (lget d i []) j ""
      else t.content (r + i) (c + j) := by
  induction d generalizing t r i with
  | nil => simp at hi
  | cons row rest ih =>
    cases i with
    | zero =>
      simp only [pasteUndo]
      have hj' : j < row.length := by simpa [lget] using hj
      rw [content_pasteUndo_untouched _ _ _ _ _ _ (by omega)]
      simp only [Nat.add_zero]
      rw [content_writeRowCells_written t r c row j hj']
      simp [lget]
    | succ i =>
      simp only [pasteUndo]
      have harith : r + (i + 1) = (r + 1) + i := by omega
      rw [harith, ih _ (r + 1) i (by simpa using hi) (by simpa [lget_cons_succ] using hj)]
      rw [rowCount_writeRowCells, ncols_writeRowCells]
      have huntouched : (writeRowCells t r c row).content ((r + 1) + i) (c + j) =
          t.content ((r + 1) + i) (c + j) :=
        content_writeRowCells_untouched _ _ _ _ _ _ (by omega)
      rw [huntouched]
      simp [lget_cons_succ]

theorem length_buildOldRow (t : Table) (r c : Nat) (l : List String) :
    (buildOldRow t r c l).length = l.length := by
  induction l generalizing c with
  | nil => rfl
  | cons s rest ih => simp [buildOldRow, ih]

theorem lget_buildOldRow (t : Table) (r c : Nat) (l : List String)
    (j : Nat) (hj : j < l.length) :
    lget (buildOldRow t r c l) j "" = t.content r (c + j) := by
  induction l generalizing c j with
  | nil => simp at hj
  | cons s rest ih =>
    cases j with
    | zero => simp [buildOldRow, lget]
    | succ j =>
      simp only [buildOldRow, lget_cons_succ]
      rw [ih (c + 1) j (by simpa using hj)]
      congr 1
      omega

theorem length_buildOld (t : Table) (r c : Nat) (d : List (List String)) :
    (buildOld t r c d).length = d.length := by
  induction d generalizing r with
  | nil => rfl
  | cons row rest ih => simp [buildOld, ih]

theorem lget_buildOld (t : Table) (r c : Nat) (d : List (List String))
    (i : Nat) (hi : i < d.length) :
    lget (buildOld t r c d) i [] = buildOldRow t (r + i) c (lget d i []) := by
  induction d generalizing r i with
  | nil => simp at hi
  | cons row rest ih =>
    cases i with
    | zero => simp [buildOld, lget]
    | succ i =>
      simp only [buildOld, lget_cons_succ]
      rw [ih (r + 1) i (by simpa using hi)]
      congr 1
      omega

/-! ## The simulation relation for the undo/redo round trip

Undoing a growth-causing paste leaves the grid larger than before the
paste (no shrink-back), so replayed states agree with the nominal states
only up to extra all-empty rows/columns.  `Dominates u t` captures this:
same text at every position, dimensions at least as large. -/

def Dominates (u t : Table) : Prop :=
  t.rowCount ≤ u.rowCount ∧ t.ncols ≤ u.ncols ∧
    ∀ r c : Nat, u.content r c = t.content r c

theorem dominates_refl (t : Table) : Dominates t t :=
  ⟨Nat.le_refl _, Nat.le_refl _, fun _ _ => rfl⟩

/-! ### Replay characterizations for the structural commands -/

theorem rowCount_redo_insertRow (t : Table) (r : Nat) (h : r ≤ t.rowCount) :
    ((Command.insertRow r).redo t).rowCount = t.rowCount + 1 := by
  simp only [Command.redo]
  rw [rowCount_writeRowCells, rowCount_insertRowAt_of_le t r h]

theorem ncols_redo_insertRow (t : Table) (r : Nat) :
    ((Command.insertRow r).redo t).ncols = t.ncols := by
  simp only [Command.redo]
  rw [ncols_writeRowCells, ncols_insertRowAt]

theorem content_redo_insertRow (t : Table) (r : Nat) (h : r ≤ t.rowCount) (r' c' : Nat) :
    ((Command.insertRow r).redo t).content r' c' =
      if r' < r then t.content r' c'
      else if r' = r then ""
      else t.content (r' - 1) c' := by
  simp only [Command.redo]
  by_cases hr : r' = r
  · subst hr
    rw [if_neg (by omega), if_pos rfl]
    by_cases hc : c' < (t.insertRowAt r').ncols
    · have hw := content_writeRowCells_written (t.insertRowAt r') r' 0
        (List.replicate (t.insertRowAt r').ncols "") c' (by simpa using hc)
      simp only [Nat.zero_add] at hw
      have hrc : (t.insertRowAt r').rowCount = t.rowCount + 1 :=
        rowCount_insertRowAt_of_le t r' h
      rw [hw, if_pos ⟨by omega, hc⟩, lget_replicate]
    · rw [content_writeRowCells_untouched _ _ _ _ _ _ (by
        simp only [List.length_replicate, ncols_insertRowAt] at *
        omega)]
      rw [content_insertRowAt t r' h]
      rw [if_neg (by omega), if_pos rfl]
  · rw [content_writeRowCells_untouched _ _ _ _ _ _ (by tauto)]
    rw [content_insertRowAt t r h]

theorem rowCount_redo_insertColumn (t : Table) (c : Nat) :
    ((Command.insertColumn c).redo t).rowCount = t.rowCount := by
  simp only [Command.redo]
  rw [rowCount_writeColCells, rowCount_insertColumnAt]

theorem ncols_redo_insertColumn (t : Table) (c : Nat) (h : c ≤ t.ncols) :
    ((Command.insertColumn c).redo t).ncols = t.ncols + 1 := by
  simp only [Command.redo]
  rw [ncols_writeColCells, ncols_insertColumnAt_of_le t c h]

theorem content_redo_insertColumn (t : Table) (c : Nat) (h : c ≤ t.ncols) (r' c' : Nat) :
    ((Command.insertColumn c).redo t).content r' c' =
      if c' < c then t.content r' c'
      else if c' = c then ""
      else t.content r' (c' - 1) := by
  simp only [Command.redo]
  by_cases hc : c' = c
  · subst hc
    rw [if_neg (by omega), if_pos rfl]
    by_cases hr : r' < (t.insertColumnAt c').rowCount
    · have hw := content_writeColCells_written (t.insertColumnAt c') c' 0
        (List.replicate (t.insertColumnAt c').rowCount "") r' (by simpa using hr)
      simp only [Nat.zero_add] at hw
      have hnc : (t.insertColumnAt c').ncols = t.ncols + 1 :=
        ncols_insertColumnAt_of_le t c' h
      rw [hw, if_pos ⟨hr, by omega⟩, lget_replicate]
    · rw [content_writeColCells_untouched _ _ _ _ _ _ (by
        simp only [List.length_replicate, rowCount_insertColumnAt] at *
        omega)]
      rw [content_insertColumnAt t c' h]
      rw [if_neg (by omega), if_pos rfl]
  · rw [content_writeColCells_untouched _ _ _ _ _ _ (by tauto)]
    rw [content_insertColumnAt t c h]

/-! ### Simulation lemmas, one pair per command kind -/

theorem undo_sim_cellChange (r c : Nat) (old new : String) (t u : Table)
    (hv : (Command.cellChange r c old new).Valid t)
    (hd : Dominates u ((Command.cellChange r c old new).redo t)) :
    Dominates ((Command.cellChange r c old new).undo u) t := by
  obtain ⟨hr, hc, hold⟩ := hv
  obtain ⟨hR, hC, hcont⟩ := hd
  simp only [Command.redo] at hR hC hcont
  rw [rowCount_setCell] at hR
  rw [ncols_setCell] at hC
  simp only [Command.undo]
  refine ⟨by rw [rowCount_setCell]; omega, by rw [ncols_setCell]; omega, ?_⟩
  intro r' c'
  rw [content_setCell]
  by_cases hrc : r' = r ∧ c' = c
  · rw [if_pos ⟨hrc.1, hrc.2, by omega, by omega⟩]
    obtain ⟨h1, h2⟩ := hrc
    subst h1
    subst h2
    exact hold.symm
  · rw [if_neg (by tauto), hcont r' c', content_setCell, if_neg (by tauto)]

theorem redo_sim_cellChange (r c : Nat) (old new : String) (t u v : Table)
    (hv : (Command.cellChange r c old new).Valid t)
    (hd : Dominates u ((Command.cellChange r c old new).redo t))
    (hd2 : Dominates v ((Command.cellChange r c old new).undo u)) :
    Dominates ((Command.cellChange r c old new).redo v) u := by
  obtain ⟨hr, hc, hold⟩ := hv
  obtain ⟨hR, hC, hcont⟩ := hd
  obtain ⟨hR2, hC2, hcont2⟩ := hd2
  simp only [Command.redo] at hR hC hcont
  simp only [Command.undo] at hR2 hC2 hcont2
  rw [rowCount_setCell] at hR hR2
  rw [ncols_setCell] at hC hC2
  simp only [Command.redo]
  refine ⟨by rw [rowCount_setCell]; omega, by rw [ncols_setCell]; omega, ?_⟩
  intro r' c'
  rw [content_setCell]
  by_cases hrc : r' = r ∧ c' = c
  · rw [if_pos ⟨hrc.1, hrc.2, by omega, by omega⟩]
    obtain ⟨h1, h2⟩ := hrc
    subst h1
    subst h2
    rw [hcont r' c', content_setCell, if_pos ⟨rfl, rfl, hr, hc⟩]
  · rw [if_neg (by tauto), hcont2 r' c', content_setCell, if_neg (by tauto)]

theorem undo_sim_insertRow (r : Nat) (t u : Table)
    (hv : (Command.insertRow r).Valid t)
    (hd : Dominates u ((Command.insertRow r).redo t)) :
    Dominates ((Command.insertRow r).undo u) t := by
  have hr : r ≤ t.rowCount := hv
  obtain ⟨hR, hC, hcont⟩ := hd
  rw [rowCount_redo_insertRow t r hr] at hR
  rw [ncols_redo_insertRow t r] at hC
  simp only [Command.undo]
  rw [if_pos (by omega)]
  refine ⟨by rw [rowCount_removeRowAt_of_lt u r (by omega)]; omega,
    by rw [ncols_removeRowAt]; omega, ?_⟩
  intro r' c'
  rw [content_removeRowAt u r (by omega)]
  by_cases hlt : r' < r
  · rw [if_pos hlt, hcont r' c', content_redo_insertRow t r hr, if_pos hlt]
  · rw [if_neg hlt, hcont (r' + 1) c', content_redo_insertRow t r hr,
      if_neg (by omega), if_neg (by omega)]
    congr 1

theorem redo_sim_insertRow (r : Nat) (t u v : Table)
    (hv : (Command.insertRow r).Valid t)
    (hd : Dominates u ((Command.insertRow r).redo t))
    (hd2 : Dominates v ((Command.insertRow r).undo u)) :
    Dominates ((Command.insertRow r).redo v) u := by
  have hr : r ≤ t.rowCount := hv
  obtain ⟨hR, hC, hcont⟩ := hd
  rw [rowCount_redo_insertRow t r hr] at hR
  rw [ncols_redo_insertRow t r] at hC
  rw [show (Command.insertRow r).undo u = u.removeRowAt r from by
    simp only [Command.undo]; rw [if_pos (by omega)]] at hd2
  obtain ⟨hR2, hC2, hcont2⟩ := hd2
  rw [rowCount_removeRowAt_of_lt u r (by omega)] at hR2
  rw [ncols_removeRowAt] at hC2
  have hrv : r ≤ v.rowCount := by omega
  refine ⟨by rw [rowCount_redo_insertRow v r hrv]; omega,
    by rw [ncols_redo_insertRow v r]; omega, ?_⟩
  intro r' c'
  rw [content_redo_insertRow v r hrv]
  by_cases hlt : r' < r
  · rw [if_pos hlt, hcont2 r' c', content_removeRowAt u r (by omega), if_pos hlt]
  · rw [if_neg hlt]
    by_cases heq : r' = r
    · rw [if_pos heq, hcont r' c', content_redo_insertRow t r hr,
        if_neg (by omega), if_pos heq]
    · rw [if_neg heq, hcont2 (r' - 1) c', content_removeRowAt u r (by omega),
        if_neg (by omega)]
      congr 1
      omega

theorem undo_sim_insertColumn (c : Nat) (t u : Table)
    (hv : (Command.insertColumn c).Valid t)
    (hd : Dominates u ((Command.insertColumn c).redo t)) :
    Dominates ((Command.insertColumn c).undo u) t := by
  have hc : c ≤ t.ncols := hv
  obtain ⟨hR, hC, hcont⟩ := hd
  rw [rowCount_redo_insertColumn t c] at hR
  rw [ncols_redo_insertColumn t c hc] at hC
  simp only [Command.undo]
  rw [if_pos (by omega)]
  refine ⟨by rw [rowCount_removeColumnAt]; omega,
    by rw [ncols_removeColumnAt_of_lt u c (by omega)]; omega, ?_⟩
  intro r' c'
  rw [content_removeColumnAt u c (by omega)]
  by_cases hlt : c' < c
  · rw [if_pos hlt, hcont r' c', content_redo_insertColumn t c hc, if_pos hlt]
  · rw [if_neg hlt, hcont r' (c' + 1), content_redo_insertColumn t c hc,
      if_neg (by omega), if_neg (by omega)]
    congr 1

theorem redo_sim_insertColumn (c : Nat) (t u v : Table)
    (hv : (Command.insertColumn c).Valid t)
    (hd : Dominates u ((Command.insertColumn c).redo t))
    (hd2 : Dominates v ((Command.insertColumn c).undo u)) :
    Dominates ((Command.insertColumn c).redo v) u := by
  have hc : c ≤ t.ncols := hv
  obtain ⟨hR, hC, hcont⟩ := hd
  rw [rowCount_redo_insertColumn t c] at hR
  rw [ncols_redo_insertColumn t c hc] at hC
  rw [show (Command.insertColumn c).undo u = u.removeColumnAt c from by
    simp only [Command.undo]; rw [if_pos (by omega)]] at hd2
  obtain ⟨hR2, hC2, hcont2⟩ := hd2
  rw [rowCount_removeColumnAt] at hR2
  rw [ncols_removeColumnAt_of_lt u c (by omega)] at hC2
  have hcv : c ≤ v.ncols := by omega
  refine ⟨by rw [rowCount_redo_insertColumn v c]; omega,
    by rw [ncols_redo_insertColumn v c hcv]; omega, ?_⟩
  intro r' c'
  rw [content_redo_insertColumn v c hcv]
  by_cases hlt : c' < c
  · rw [if_pos hlt, hcont2 r' c', content_removeColumnAt u c (by omega), if_pos hlt]
  · rw [if_neg hlt]
    by_cases heq : c' = c
    · rw [if_pos heq, hcont r' c', content_redo_insertColumn t c hc,
        if_neg (by omega), if_pos heq]
    · rw [if_neg heq, hcont2 r' (c' - 1), content_removeColumnAt u c (by omega),
        if_neg (by omega)]
      congr 1
      omega

theorem content_setHeaderItem (t : Table) (c : Nat) (s : String) (r' c' : Nat) :
    (t.setHeaderItem c s).content r' c' = t.content r' c' := by
  unfold Table.setHeaderItem Table.content Table.cellItem Table.rowCount
  split <;> rfl

theorem rowCount_setHeaderItem (t : Table) (c : Nat) (s : String) :
    (t.setHeaderItem c s).rowCount = t.rowCount := by
  unfold Table.setHeaderItem Table.rowCount
  split <;> rfl

theorem ncols_setHeaderItem (t : Table) (c : Nat) (s : String) :
    (t.setHeaderItem c s).ncols = t.ncols := by
  unfold Table.setHeaderItem
  split <;> rfl

/-- Content of `DeleteRowCommand.undo` applied to any grid `w`:
re-inserts a row at `r` and fills it from the snapshot (cells beyond the
snapshot or the current column count stay empty). -/
theorem content_undoDeleteRow (w : Table) (r : Nat) (data : List String)
    (h : r ≤ w.rowCount) (r' c' : Nat) :
    (writeRowCells (w.insertRowAt r) r 0 data).content r' c' =
      if r' < r then w.content r' c'
      else if r' = r then
        (if c' < data.length ∧ c' < w.ncols then lget data c' "" else "")
      else w.content (r' - 1) c' := by
  by_cases hr : r' = r
  · subst hr
    rw [if_neg (by omega), if_pos rfl]
    have hins : (w.insertRowAt r').content r' c' = "" := by
      rw [content_insertRowAt w r' h, if_neg (by omega), if_pos rfl]
    by_cases hc : c' < data.length
    · have hw := content_writeRowCells_written (w.insertRowAt r') r' 0 data c' hc
      simp only [Nat.zero_add] at hw
      rw [rowCount_insertRowAt_of_le w r' h, ncols_insertRowAt] at hw
      rw [hw, hins]
      split_ifs <;> first | rfl | (exfalso; omega)
    · rw [content_writeRowCells_untouched _ _ _ _ _ _ (by omega)]
      rw [hins, if_neg (by omega)]
  · rw [content_writeRowCells_untouched _ _ _ _ _ _ (by tauto)]
    rw [content_insertRowAt w r h]
    split_ifs <;> first | rfl | (exfalso; omega)

/-- Content of `DeleteColumnCommand.undo` applied to any grid `w`. -/
theorem content_undoDeleteColumn (w : Table) (c : Nat) (data : List String) (hdr : String)
    (h : c ≤ w.ncols) (r' c' : Nat) :
    (writeColCells ((w.insertColumnAt c).setHeaderItem c hdr) c 0 data).content r' c' =
      if c' < c then w.content r' c'
      else if c' = c then
        (if r' < data.length ∧ r' < w.rowCount then lget data r' "" else "")
      else w.content r' (c' - 1) := by
  have hbase : ∀ a b : Nat,
      ((w.insertColumnAt c).setHeaderItem c hdr).content a b = (w.insertColumnAt c).content a b :=
    fun a b => content_setHeaderItem _ _ _ _ _
  have hbR : ((w.insertColumnAt c).setHeaderItem c hdr).rowCount = w.rowCount := by
    rw [rowCount_setHeaderItem, rowCount_insertColumnAt]
  have hbC : ((w.insertColumnAt c).setHeaderItem c hdr).ncols = w.ncols + 1 := by
    rw [ncols_setHeaderItem, ncols_insertColumnAt_of_le w c h]
  by_cases hc : c' = c
  · subst hc
    rw [if_neg (by omega), if_pos rfl]
    have hins : ((w.insertColumnAt c').setHeaderItem c' hdr).content r' c' = "" := by
      rw [hbase, content_insertColumnAt w c' h, if_neg (by omega), if_pos rfl]
    by_cases hr : r' < data.length
    · have hw := content_writeColCells_written ((w.insertColumnAt c').setHeaderItem c' hdr)
        c' 0 data r' hr
      simp only [Nat.zero_add] at hw
      rw [hbR, hbC] at hw
      rw [hw, hins]
      split_ifs <;> first | rfl | (exfalso; omega)
    · rw [content_writeColCells_untouched _ _ _ _ _ _ (by omega)]
      rw [hins, if_neg (by omega)]
  · rw [content_writeColCells_untouched _ _ _ _ _ _ (by tauto)]
    rw [hbase, content_insertColumnAt w c h]
    split_ifs <;> first | rfl | (exfalso; omega)

theorem undo_sim_deleteRow (r : Nat) (data : List String) (t u : Table)
    (hv : (Command.deleteRow r data).Valid t)
    (hd : Dominates u ((Command.deleteRow r data).redo t)) :
    Dominates ((Command.deleteRow r data).undo u) t := by
  obtain ⟨hr, hdata⟩ := hv
  rw [show (Command.deleteRow r data).redo t = t.removeRowAt r from by
    simp only [Command.redo]; rw [if_pos hr]] at hd
  obtain ⟨hR, hC, hcont⟩ := hd
  rw [rowCount_removeRowAt_of_lt t r hr] at hR
  rw [ncols_removeRowAt] at hC
  simp only [Command.undo]
  have hru : r ≤ u.rowCount := by omega
  have hlen : data.length = t.ncols := by rw [hdata]; simp
  refine ⟨?_, ?_, ?_⟩
  · rw [rowCount_writeRowCells, rowCount_insertRowAt_of_le u r hru]
    omega
  · rw [ncols_writeRowCells, ncols_insertRowAt]
    omega
  · intro r' c'
    rw [content_undoDeleteRow u r data hru]
    by_cases hlt : r' < r
    · rw [if_pos hlt, hcont r' c', content_removeRowAt t r hr, if_pos hlt]
    · rw [if_neg hlt]
      by_cases heq : r' = r
      · rw [if_pos heq]
        subst heq
        by_cases hcc : c' < data.length ∧ c' < u.ncols
        · rw [if_pos hcc]
          rw [hdata, lget_range_map _ _ _ (by omega)]
        · rw [if_neg hcc]
          rw [(t.content_out_of_range r' c' (by omega)).symm]
      · rw [if_neg heq, hcont (r' - 1) c', content_removeRowAt t r hr, if_neg (by omega)]
        congr 1
        omega

theorem redo_sim_deleteRow (r : Nat) (data : List String) (t u v : Table)
    (hv : (Command.deleteRow r data).Valid t)
    (hd : Dominates u ((Command.deleteRow r data).redo t))
    (hd2 : Dominates v ((Command.deleteRow r data).undo u)) :
    Dominates ((Command.deleteRow r data).redo v) u := by
  obtain ⟨hr, hdata⟩ := hv
  rw [show (Command.deleteRow r data).redo t = t.removeRowAt r from by
    simp only [Command.redo]; rw [if_pos hr]] at hd
  obtain ⟨hR, hC, hcont⟩ := hd
  rw [rowCount_removeRowAt_of_lt t r hr] at hR
  rw [ncols_removeRowAt] at hC
  have hru : r ≤ u.rowCount := by omega
  simp only [Command.undo] at hd2
  obtain ⟨hR2, hC2, hcont2⟩ := hd2
  rw [rowCount_writeRowCells, rowCount_insertRowAt_of_le u r hru] at hR2
  rw [ncols_writeRowCells, ncols_insertRowAt] at hC2
  rw [show (Command.deleteRow r data).redo v = v.removeRowAt r from by
    simp only [Command.redo]; rw [if_pos (by omega)]]
  refine ⟨by rw [rowCount_removeRowAt_of_lt v r (by omega)]; omega,
    by rw [ncols_removeRowAt]; omega, ?_⟩
  intro r' c'
  rw [content_removeRowAt v r (by omega)]
  by_cases hlt : r' < r
  · rw [if_pos hlt, hcont2 r' c', content_undoDeleteRow u r data hru, if_pos hlt]
  · rw [if_neg hlt, hcont2 (r' + 1) c', content_undoDeleteRow u r data hru,
      if_neg (by omega), if_neg (by omega)]
    congr 1

theorem undo_sim_deleteColumn (c : Nat) (data : List String) (hdr : String) (t u : Table)
    (hv : (Command.deleteColumn c data hdr).Valid t)
    (hd : Dominates u ((Command.deleteColumn c data hdr).redo t)) :
    Dominates ((Command.deleteColumn c data hdr).undo u) t := by
  obtain ⟨hc, hdata, _⟩ := hv
  rw [show (Command.deleteColumn c data hdr).redo t = t.removeColumnAt c from by
    simp only [Command.redo]; rw [if_pos hc]] at hd
  obtain ⟨hR, hC, hcont⟩ := hd
  rw [rowCount_removeColumnAt] at hR
  rw [ncols_removeColumnAt_of_lt t c hc] at hC
  simp only [Command.undo]
  have hcu : c ≤ u.ncols := by omega
  have hlen : data.length = t.rowCount := by rw [hdata]; simp
  refine ⟨?_, ?_, ?_⟩
  · rw [rowCount_writeColCells, rowCount_setHeaderItem, rowCount_insertColumnAt]
    omega
  · rw [ncols_writeColCells, ncols_setHeaderItem, ncols_insertColumnAt_of_le u c hcu]
    omega
  · intro r' c'
    rw [content_undoDeleteColumn u c data hdr hcu]
    by_cases hlt : c' < c
    · rw [if_pos hlt, hcont r' c', content_removeColumnAt t c hc, if_pos hlt]
    · rw [if_neg hlt]
      by_cases heq : c' = c
      · rw [if_pos heq]
        subst heq
        by_cases hrr : r' < data.length ∧ r' < u.rowCount
        · rw [if_pos hrr]
          rw [hdata, lget_range_map _ _ _ (by omega)]
        · rw [if_neg hrr]
          rw [(t.content_out_of_range r' c' (by omega)).symm]
      · rw [if_neg heq, hcont r' (c' - 1), content_removeColumnAt t c hc, if_neg (by omega)]
        congr 1
        omega

theorem redo_sim_deleteColumn (c : Nat) (data : List String) (hdr : String) (t u v : Table)
    (hv : (Command.deleteColumn c data hdr).Valid t)
    (hd : Dominates u ((Command.deleteColumn c data hdr).redo t))
    (hd2 : Dominates v ((Command.deleteColumn c data hdr).undo u)) :
    Dominates ((Command.deleteColumn c data hdr).redo v) u := by
  obtain ⟨hc, hdata, _⟩ := hv
  rw [show (Command.deleteColumn c data hdr).redo t = t.removeColumnAt c from by
    simp only [Command.redo]; rw [if_pos hc]] at hd
  obtain ⟨hR, hC, hcont⟩ := hd
  rw [rowCount_removeColumnAt] at hR
  rw [ncols_removeColumnAt_of_lt t c hc] at hC
  have hcu : c ≤ u.ncols := by omega
  simp only [Command.undo] at hd2
  obtain ⟨hR2, hC2, hcont2⟩ := hd2
  rw [rowCount_writeColCells, rowCount_setHeaderItem, rowCount_insertColumnAt] at hR2
  rw [ncols_writeColCells, ncols_setHeaderItem, ncols_insertColumnAt_of_le u c hcu] at hC2
  rw [show (Command.deleteColumn c data hdr).redo v = v.removeColumnAt c from by
    simp only [Command.redo]; rw [if_pos (by omega)]]
  refine ⟨by rw [rowCount_removeColumnAt]; omega,
    by rw [ncols_removeColumnAt_of_lt v c (by omega)]; omega, ?_⟩
  intro r' c'
  rw [content_removeColumnAt v c (by omega)]
  by_cases hlt : c' < c
  · rw [if_pos hlt, hcont2 r' c', content_undoDeleteColumn u c data hdr hcu, if_pos hlt]
  · rw [if_neg hlt, hcont2 r' (c' + 1), content_undoDeleteColumn u c data hdr hcu,
      if_neg (by omega), if_neg (by omega)]
    congr 1

theorem buildOld_shape (t : Table) (r c : Nat) (d : List (List String)) (i : Nat) :
    (lget (buildOld t r c d) i []).length = (lget d i []).length := by
  by_cases hi : i < d.length
  · rw [lget_buildOld t r c d i hi, length_buildOldRow]
  · rw [lget_of_length_le _ _ _ (by rw [length_buildOld]; omega),
      lget_of_length_le _ _ _ (by omega)]

theorem undo_sim_paste (sr sc : Nat) (old new : List (List String)) (t u : Table)
    (hv : (Command.paste sr sc old new).Valid t)
    (hd : Dominates u ((Command.paste sr sc old new).redo t)) :
    Dominates ((Command.paste sr sc old new).undo u) t := by
  have hold : old = buildOld t sr sc new := hv
  obtain ⟨hR, hC, hcont⟩ := hd
  simp only [Command.redo] at hR hC hcont
  have hRt : t.rowCount ≤ (pasteRedo t sr sc new).rowCount := rowCount_pasteRedo_le t sr sc new
  have hCt : t.ncols ≤ (pasteRedo t sr sc new).ncols := ncols_pasteRedo_le t sr sc new
  simp only [Command.undo]
  refine ⟨by rw [rowCount_pasteUndo]; omega, by rw [ncols_pasteUndo]; omega, ?_⟩
  intro r' c'
  by_cases hblk : sr ≤ r' ∧ r' - sr < old.length ∧ sc ≤ c' ∧
      c' - sc < (lget old (r' - sr) []).length
  · obtain ⟨hb1, hb2, hb3, hb4⟩ := hblk
    have hlen : old.length = new.length := by rw [hold, length_buildOld]
    have hi : r' - sr < new.length := by omega
    have hj : c' - sc < (lget new (r' - sr) []).length := by
      rw [hold, buildOld_shape] at hb4
      exact hb4
    have hb := pasteRedo_inbounds t sr sc new (r' - sr) (c' - sc) hi hj
    have harr : sr + (r' - sr) = r' := by omega
    have harc : sc + (c' - sc) = c' := by omega
    have hw := content_pasteUndo_written u sr sc old (r' - sr) (c' - sc) (by omega)
      (by omega)
    rw [harr, harc] at hw
    rw [hw, if_pos ⟨by omega, by omega⟩]
    rw [hold, lget_buildOld t sr sc new (r' - sr) hi,
      lget_buildOldRow t (sr + (r' - sr)) sc (lget new (r' - sr) []) (c' - sc) hj,
      harr, harc]
  · rw [content_pasteUndo_untouched _ _ _ _ _ _ hblk, hcont r' c',
      content_pasteRedo_untouched _ _ _ _ _ _ (by
        intro hx
        apply hblk
        obtain ⟨h1, h2, h3, h4⟩ := hx
        refine ⟨h1, by rw [hold, length_buildOld]; omega, h3, ?_⟩
        rw [hold, buildOld_shape]
        exact h4)]

theorem redo_sim_paste (sr sc : Nat) (old new : List (List String)) (t u v : Table)
    (hv : (Command.paste sr sc old new).Valid t)
    (hd : Dominates u ((Command.paste sr sc old new).redo t))
    (hd2 : Dominates v ((Command.paste sr sc old new).undo u)) :
    Dominates ((Command.paste sr sc old new).redo v) u := by
  have hold : old = buildOld t sr sc new := hv
  obtain ⟨hR, hC, hcont⟩ := hd
  simp only [Command.redo] at hR hC hcont
  simp only [Command.undo] at hd2
  obtain ⟨hR2, hC2, hcont2⟩ := hd2
  rw [rowCount_pasteUndo] at hR2
  rw [ncols_pasteUndo] at hC2
  simp only [Command.redo]
  refine ⟨?_, ?_, ?_⟩
  · exact Nat.le_trans hR2 (rowCount_pasteRedo_le v sr sc new)
  · exact Nat.le_trans hC2 (ncols_pasteRedo_le v sr sc new)
  · intro r' c'
    by_cases hblk : sr ≤ r' ∧ r' - sr < new.length ∧ sc ≤ c' ∧
        c' - sc < (lget new (r' - sr) []).length
    · obtain ⟨hb1, hb2, hb3, hb4⟩ := hblk
      have harr : sr + (r' - sr) = r' := by omega
      have harc : sc + (c' - sc) = c' := by omega
      have hw := content_pasteRedo_written v sr sc new (r' - sr) (c' - sc) hb2 hb4
      rw [harr, harc] at hw
      rw [hw, hcont r' c']
      have hw2 := content_pasteRedo_written t sr sc new (r' - sr) (c' - sc) hb2 hb4
      rw [harr, harc] at hw2
      rw [hw2]
    · rw [content_pasteRedo_untouched _ _ _ _ _ _ hblk, hcont2 r' c',
        content_pasteUndo_untouched _ _ _ _ _ _ (by
          intro hx
          apply hblk
          obtain ⟨h1, h2, h3, h4⟩ := hx
          refine ⟨h1, by rw [hold, length_buildOld] at h2; omega, h3, ?_⟩
          rw [hold, buildOld_shape] at h4
          exact h4)]

theorem undo_sim (cmd : Command) (t u : Table)
    (hv : cmd.Valid t) (hd : Dominates u (cmd.redo t)) : Dominates (cmd.undo u) t := by
  cases cmd with
  | cellChange r c old new => exact undo_sim_cellChange r c old new t u hv hd
  | insertRow r => exact undo_sim_insertRow r t u hv hd
  | insertColumn c => exact undo_sim_insertColumn c t u hv hd
  | deleteRow r data => exact undo_sim_deleteRow r data t u hv hd
  | deleteColumn c data hdr => exact undo_sim_deleteColumn c data hdr t u hv hd
  | paste sr sc old new => exact undo_sim_paste sr sc old new t u hv hd

theorem redo_sim (cmd : Command) (t u v : Table)
    (hv : cmd.Valid t) (hd : Dominates u (cmd.redo t))
    (hd2 : Dominates v (cmd.undo u)) : Dominates (cmd.redo v) u := by
  cases cmd with
  | cellChange r c old new => exact redo_sim_cellChange r c old new t u v hv hd hd2
  | insertRow r => exact redo_sim_insertRow r t u v hv hd hd2
  | insertColumn c => exact redo_sim_insertColumn c t u v hv hd hd2
  | deleteRow r data => exact redo_sim_deleteRow r data t u v hv hd hd2
  | deleteColumn c data hdr => exact redo_sim_deleteColumn c data hdr t u v hv hd hd2
  | paste sr sc old new => exact redo_sim_paste sr sc old new t u v hv hd hd2

/-! ## Command sequences -/

/-- Sequential forward application: each API mutation applies its
command's forward effect on the current grid. -/
def applyAll (t : Table) : List Command → Table
  | [] => t
  | c :: cs => applyAll (c.redo t) cs

/-- Backward replay of a whole sequence, most recent command first
(the order in which `undo()` pops them). -/
def undoAll (u : Table) : List Command → Table
  | [] => u
  | c :: cs => c.undo (undoAll u cs)

/-- Every command of the sequence is valid for the grid state it was
created against. -/
def ValidSeq : Table → List Command → Prop
  | _, [] => True
  | t, c :: cs => c.Valid t ∧ ValidSeq (c.redo t) cs

instance instDecValidSeq : (t : Table) → (cs : List Command) → Decidable (ValidSeq t cs)
  | _, [] => isTrue trivial
  | t, c :: cs =>
    have : Decidable (ValidSeq (c.redo t) cs) := instDecValidSeq _ _
    inferInstanceAs (Decidable (_ ∧ _))

theorem undoAll_sim (cs : List Command) (t u : Table)
    (hv : ValidSeq t cs) (hd : Dominates u (applyAll t cs)) :
    Dominates (undoAll u cs) t := by
  induction cs generalizing t with
  | nil => exact hd
  | cons c cs ih =>
    obtain ⟨hv1, hv2⟩ := hv
    exact undo_sim c t _ hv1 (ih (c.redo t) hv2 hd)

theorem redoAll_sim (cs : List Command) (t u v : Table)
    (hv : ValidSeq t cs) (hd : Dominates u (applyAll t cs))
    (hd2 : Dominates v (undoAll u cs)) :
    Dominates (applyAll v cs) u := by
  induction cs generalizing t v with
  | nil => exact hd2
  | cons c cs ih =>
    obtain ⟨hv1, hv2⟩ := hv
    have hu' : Dominates (undoAll u cs) (c.redo t) := undoAll_sim cs (c.redo t) u hv2 hd
    have h1 : Dominates (c.redo v) (undoAll u cs) :=
      redo_sim c t (undoAll u cs) v hv1 hu' hd2
    exact ih (c.redo t) (c.redo v) hv2 hd h1

/-- Grid-level round trip: undoing a whole valid sequence and redoing it
reproduces the post-forward grid content at every position. -/
theorem roundTrip_content (t : Table) (cs : List Command) (hv : ValidSeq t cs)
    (r c : Nat) :
    (applyAll (undoAll (applyAll t cs) cs) cs).content r c
      = (applyAll t cs).content r c :=
  (redoAll_sim cs t (applyAll t cs) (undoAll (applyAll t cs) cs) hv
    (dominates_refl _) (dominates_refl _)).2.2 r c

/-! ## History manager

The undo/redo stacks kept as instance state on the widget, modelled as an
explicit session record.  Python lists append at the end and evict with
`pop(0)`, so the head of each list is the oldest entry and the last
element is the top of the stack. -/

structure Session where
  table : Table
  undoStack : List Command
  redoStack : List Command
  /-- `max_history` (initialised to 50). -/
  maxHistory : Nat
deriving DecidableEq, Repr

namespace Session

/-- `push_command`: append to `undo_stack`, evict the oldest entry when
over capacity, clear `redo_stack`. -/
def pushCommand (s : Session) (cmd : Command) : Session :=
  let u := s.undoStack ++ [cmd]
  { s with
    undoStack := if s.maxHistory < u.length then u.tail else u,
    redoStack := [] }

/-- `undo`: no-op on an empty stack; otherwise pop, replay backward, and
transfer to `redo_stack` under the same capacity rule. -/
def undo (s : Session) : Session :=
  match s.undoStack.getLast? with
  | none => s
  | some cmd =>
    let r := s.redoStack ++ [cmd]
    { s with
      table := cmd.undo s.table,
      undoStack := s.undoStack.dropLast,
      redoStack := if s.maxHistory < r.length then r.tail else r }

/-- `redo`: symmetric to `undo`. -/
def redo (s : Session) : Session :=
  match s.redoStack.getLast? with
  | none => s
  | some cmd =>
    let u := s.undoStack ++ [cmd]
    { s with
      table := cmd.redo s.table,
      undoStack := if s.maxHistory < u.length then u.tail else u,
      redoStack := s.redoStack.dropLast }

/-- A user edit committed at cell `(r, c)` — the `on_item_changed` path:
the item must exist (in-range position) and the text must actually have
changed; the grid already holds the new text when the `CellChangeCommand`
recording the previous text is pushed. -/
def editCell (s : Session) (r c : Nat) (newText : String) : Session :=
  if r < s.table.rowCount ∧ c < s.table.ncols ∧ newText ≠ s.table.content r c then
    pushCommand { s with table := s.table.setCell r c newText }
      (.cellChange r c (s.table.content r c) newText)
  else s

/-- `delete_row_at`: in-range guard, snapshot the row, replay forward,
push. -/
def deleteRowAt (s : Session) (r : Nat) : Session :=
  if r < s.table.rowCount then
    let cmd := Command.deleteRow r
      ((List.range s.table.ncols).map (fun c => s.table.content r c))
    pushCommand { s with table := cmd.redo s.table } cmd
  else s

/-- `delete_column_at`: in-range guard, snapshot the column and its header
text, replay forward, push. -/
def deleteColumnAt (s : Session) (c : Nat) : Session :=
  if c < s.table.ncols then
    let cmd := Command.deleteColumn c
      ((List.range s.table.rowCount).map (fun r => s.table.content r c))
      (s.table.headerText c)
    pushCommand { s with table := cmd.redo s.table } cmd
  else s

end Session

/-- Single-character split with Python's `str.split(sep)` semantics for a
one-character separator (the paste parser only splits on `'\n'` and
`'\t'`): the empty text yields one empty field, and separators at the ends
yield empty fields. -/
def splitOnChar (sep : Char) : List Char → List (List Char)
  | [] => [[]]
  | a :: rest =>
    if a = sep then [] :: splitOnChar sep rest
    else
      match splitOnChar sep rest with
      | [] => [[a]]
      | g :: gs => (a :: g) :: gs

/-- The parsing done by `paste_from_clipboard`: rows are newline-split,
one trailing empty row (from a trailing newline) is dropped, and each row
is tab-split into cell texts. -/
def parsePaste (text : String) : List (List String) :=
  let rows := splitOnChar '\n' text.data
  let rows := if rows ≠ [] ∧ rows.getLast? = some [] then rows.dropLast else rows
  rows.map (fun row => (splitOnChar '\t' row).map (fun cs => String.mk cs))

namespace Session

/-- `paste_from_clipboard`, taking the clipboard text and the anchor cell
(top-left of `selectedRanges()[0]`, or `(0, 0)` with no selection) as
inputs: parse, snapshot the destination cells, replay forward, push. -/
def pasteAt (s : Session) (startRow startCol : Nat) (text : String) : Session :=
  if text = "" then s
  else
    let rows := parsePaste text
    if rows = [] then s
    else
      let cmd := Command.paste startRow startCol
        (buildOld s.table startRow startCol rows) rows
      pushCommand { s with table := cmd.redo s.table } cmd

/-- One forward API mutation: apply the command's forward effect, then
push it (the shape shared by every mutation entry point). -/
def applyCmd (s : Session) (cmd : Command) : Session :=
  pushCommand { s with table := cmd.redo s.table } cmd

def applySeq (s : Session) : List Command → Session
  | [] => s
  | c :: cs => applySeq (applyCmd s c) cs

def undoN : Nat → Session → Session
  | 0, s => s
  | n + 1, s => undoN n (undo s)

def redoN : Nat → Session → Session
  | 0, s => s
  | n + 1, s => redoN n (redo s)

end Session

/-! ### Stack evolution lemmas -/

theorem undoAll_concat (u : Table) (l : List Command) (c : Command) :
    undoAll u (l ++ [c]) = undoAll (c.undo u) l := by
  induction l with
  | nil => rfl
  | cons d l ih => simp [undoAll, ih]

theorem applyAll_concat (t : Table) (l : List Command) (c : Command) :
    applyAll t (l ++ [c]) = c.redo (applyAll t l) := by
  induction l generalizing t with
  | nil => rfl
  | cons d l ih => simp [applyAll, ih]

/-- Redo replay of a stack in Python order (head oldest, popping from the
end). -/
def redoAllR (t : Table) : List Command → Table
  | [] => t
  | c :: cs => c.redo (redoAllR t cs)

theorem redoAllR_concat (t : Table) (l : List Command) (c : Command) :
    redoAllR t (l ++ [c]) = redoAllR (c.redo t) l := by
  induction l with
  | nil => rfl
  | cons d l ih => simp [redoAllR, ih]

theorem redoAllR_reverse (t : Table) (cs : List Command) :
    redoAllR t cs.reverse = applyAll t cs := by
  induction cs generalizing t with
  | nil => rfl
  | cons c cs ih =>
    rw [List.reverse_cons, redoAllR_concat, ih]
    rfl

theorem applySeq_spec (cs : List Command) (s : Session) (pre : List Command)
    (hpre : s.undoStack = pre) (hred : s.redoStack = [])
    (hcap : pre.length + cs.length ≤ s.maxHistory) :
    s.applySeq cs =
      { table := applyAll s.table cs, undoStack := pre ++ cs,
        redoStack := [], maxHistory := s.maxHistory } := by
  induction cs generalizing s pre with
  | nil =>
    cases s
    simp_all [Session.applySeq, applyAll]
  | cons c cs ih =>
    simp only [Session.applySeq]
    have hstep : s.applyCmd c =
        { table := c.redo s.table, undoStack := pre ++ [c],
          redoStack := [], maxHistory := s.maxHistory } := by
      simp only [Session.applyCmd, Session.pushCommand, hpre]
      have : ¬ s.maxHistory < (pre ++ [c]).length := by
        simp only [List.length_append, List.length_cons, List.length_nil]
        simp only [List.length_cons, List.length_append] at hcap
        omega
      rw [if_neg this]
    rw [hstep, ih _ (pre ++ [c]) rfl rfl (by
      simp only [List.length_append, List.length_cons, List.length_nil]
      simp only [List.length_cons] at hcap
      omega)]
    simp [applyAll, List.append_assoc]

theorem undoN_spec (l : List Command) (s : Session)
    (hl : s.undoStack = l) (hcap : s.redoStack.length + l.length ≤ s.maxHistory) :
    Session.undoN l.length s =
      { table := undoAll s.table l, undoStack := [],
        redoStack := s.redoStack ++ l.reverse, maxHistory := s.maxHistory } := by
  induction l using List.reverseRecOn generalizing s with
  | nil =>
    cases s
    simp_all [Session.undoN, undoAll]
  | append_singleton l c ih =>
    have hlen : (l ++ [c]).length = l.length + 1 := by simp
    rw [hlen]
    simp only [Session.undoN]
    have hstep : s.undo =
        { table := c.undo s.table, undoStack := l,
          redoStack := s.redoStack ++ [c], maxHistory := s.maxHistory } := by
      simp only [Session.undo, hl]
      rw [List.getLast?_concat]
      simp only [List.dropLast_concat]
      have : ¬ s.maxHistory < (s.redoStack ++ [c]).length := by
        simp only [List.length_append, List.length_cons, List.length_nil]
        simp only [List.length_append, List.length_cons, List.length_nil] at hcap
        omega
      rw [if_neg this]
    rw [hstep, ih _ rfl (by
      simp only [List.length_append, List.length_cons, List.length_nil] at hcap ⊢
      omega)]
    rw [undoAll_concat]
    simp [List.append_assoc]

theorem redoN_spec (m : List Command) (s : Session)
    (hm : s.redoStack = m) (hcap : s.undoStack.length + m.length ≤ s.maxHistory) :
    Session.redoN m.length s =
      { table := redoAllR s.table m, undoStack := s.undoStack ++ m.reverse,
        redoStack := [], maxHistory := s.maxHistory } := by
  induction m using List.reverseRecOn generalizing s with
  | nil =>
    cases s
    simp_all [Session.redoN, redoAllR]
  | append_singleton m c ih =>
    have hlen : (m ++ [c]).length = m.length + 1 := by simp
    rw [hlen]
    simp only [Session.redoN]
    have hstep : s.redo =
        { table := c.redo s.table, undoStack := s.undoStack ++ [c],
          redoStack := m, maxHistory := s.maxHistory } := by
      simp only [Session.redo, hm]
      rw [List.getLast?_concat]
      simp only [List.dropLast_concat]
      have : ¬ s.maxHistory < (s.undoStack ++ [c]).length := by
        simp only [List.length_append, List.length_cons, List.length_nil]
        simp only [List.length_append, List.length_cons, List.length_nil] at hcap
        omega
      rw [if_neg this]
    rw [hstep, ih _ rfl (by
      simp only [List.length_append, List.length_cons, List.length_nil] at hcap ⊢
      omega)]
    rw [redoAllR_concat]
    simp [List.append_assoc]

/-! ## Selection-order tracker -/

/-- `mousePressEvent` on a valid column (left button): `isSelected` is
`isColumnSelected(column)` for the clicked column at press time.  A click
outside the current selection resets the order to the clicked column; a
click inside it moves the column to the tail. -/
def recordColumnPress (order : List Nat) (column : Nat) (isSelected : Bool) : List Nat :=
  if !isSelected then [column]
  else (if column ∈ order then order.erase column else order) ++ [column]

/-- `mouseReleaseEvent` ending a drag whose press and release both hit
valid columns: a genuine drag (different columns) rebuilds the order
left-to-right over the visible columns of the dragged range. -/
def dragReleaseOrder (order : List Nat) (startCol releaseCol : Nat)
    (hidden : Nat → Bool) : List Nat :=
  if startCol ≠ releaseCol then
    (List.range' (min startCol releaseCol)
      (max startCol releaseCol + 1 - min startCol releaseCol)).filter
      (fun col => !hidden col)
  else order

/-- `keyPressEvent` Ctrl+A: records every column in index order. -/
def selectAllOrder (colCount : Nat) : List Nat := List.range colCount

/-- `get_selection_order`: filters out columns that no longer exist and
hidden columns. -/
def getSelectionOrder (order : List Nat) (colCount : Nat) (hidden : Nat → Bool) : List Nat :=
  order.filter (fun col => decide (col < colCount) && !hidden col)

/-! ## Demonstration data shared by the concrete witnesses -/

def demoTable : Table :=
  { cells := [[some "a", some "b"], [some "c", some "d"]],
    headers := [some "H1", some "H2"], ncols := 2 }

def demoCmds : List Command :=
  [ .cellChange 0 0 "a" "x",
    .insertRow 1,
    .deleteRow 1 ["", ""],
    .paste 0 0 [["x", "b", ""]] [["p", "q", "r"]] ]

/-! ## The claims -/

/-- **C1**: for every sequence of `N ≤ maxHistory` valid commands applied
to a grid through the API (forward effect then push, starting from empty
stacks), calling `undo()` `N` times and then `redo()` `N` times yields a
grid whose cell contents equal, cell-by-cell, the grid content immediately
after the `N` forward applications. -/
theorem claim1_round_trip (t0 : Table) (cs : List Command) (maxHistory : Nat)
    (hv : ValidSeq t0 cs) (hlen : cs.length ≤ maxHistory) (r c : Nat) :
    ((Session.redoN cs.length (Session.undoN cs.length
        (Session.applySeq ⟨t0, [], [], maxHistory⟩ cs))).table).content r c =
      ((Session.applySeq ⟨t0, [], [], maxHistory⟩ cs).table).content r c := by
  have hF : Session.applySeq ⟨t0, [], [], maxHistory⟩ cs =
      ⟨applyAll t0 cs, cs, [], maxHistory⟩ := by
    rw [applySeq_spec cs _ [] rfl rfl (by simpa using hlen)]
    rfl
  have hU : Session.undoN cs.length (⟨applyAll t0 cs, cs, [], maxHistory⟩ : Session) =
      ⟨undoAll (applyAll t0 cs) cs, [], cs.reverse, maxHistory⟩ := by
    rw [undoN_spec cs _ rfl (by simpa using hlen)]
    rfl
  have hR : Session.redoN cs.reverse.length
      (⟨undoAll (applyAll t0 cs) cs, [], cs.reverse, maxHistory⟩ : Session) =
      ⟨redoAllR (undoAll (applyAll t0 cs) cs) cs.reverse,
        cs.reverse.reverse, [], maxHistory⟩ := by
    rw [redoN_spec cs.reverse _ rfl
      (by simp only [List.length_reverse, List.length_nil]; omega)]
    rfl
  rw [hF, hU, show cs.length = cs.reverse.length from (List.length_reverse cs).symm, hR]
  simp only [redoAllR_reverse]
  exact roundTrip_content t0 cs hv r c

/-- Witness for C1 at a concrete grid and command sequence containing a
cell edit, a row insertion, a row deletion and a growing paste. -/
theorem claim1_round_trip_witness :
    ValidSeq demoTable demoCmds ∧ demoCmds.length ≤ 50 ∧
      ((Session.redoN demoCmds.length (Session.undoN demoCmds.length
          (Session.applySeq ⟨demoTable, [], [], 50⟩ demoCmds))).table).content 0 0 =
        ((Session.applySeq ⟨demoTable, [], [], 50⟩ demoCmds).table).content 0 0 :=
  ⟨by decide, by decide,
    claim1_round_trip demoTable demoCmds 50 (by decide) (by decide) 0 0⟩

theorem redo_pushCommand (s : Session) (cmd : Command) :
    (s.pushCommand cmd).redo = s.pushCommand cmd := rfl

theorem editCell_eq_push (s : Session) (r c : Nat) (newText : String)
    (h : r < s.table.rowCount ∧ c < s.table.ncols ∧ newText ≠ s.table.content r c) :
    s.editCell r c newText =
      Session.pushCommand { s with table := s.table.setCell r c newText }
        (.cellChange r c (s.table.content r c) newText) := by
  rw [Session.editCell, if_pos h]

/-- A single-row five-column grid used by the capacity scenario. -/
def demoRow : Table :=
  { cells := [[some "", some "", some "", some "", some ""]],
    headers := [none, none, none, none, none], ncols := 5 }

/-- Five distinct cell edits through the user-edit path. -/
def edits5 (s : Session) : Session :=
  ((((s.editCell 0 0 "v1").editCell 0 1 "v2").editCell 0 2 "v3").editCell 0 3
      "v4").editCell 0 4 "v5"

/-- **C2**: pushing a new command (any mutation issued, including one
issued after undos) empties `redoStack` entirely; consequently after
"edit cell A, undo, edit a different cell B", `redo()` is a no-op. -/
theorem claim2_redo_invalidation (s : Session) (cmd : Command)
    (s' : Session) (rA cA rB cB : Nat) (a b : String)
    (hB : rB < ((s'.editCell rA cA a).undo).table.rowCount ∧
          cB < ((s'.editCell rA cA a).undo).table.ncols ∧
          b ≠ ((s'.editCell rA cA a).undo).table.content rB cB) :
    (s.pushCommand cmd).redoStack = [] ∧
      (((s'.editCell rA cA a).undo).editCell rB cB b).redo =
        ((s'.editCell rA cA a).undo).editCell rB cB b := by
  refine ⟨rfl, ?_⟩
  rw [editCell_eq_push ((s'.editCell rA cA a).undo) rB cB b hB]
  exact redo_pushCommand _ _

/-- Witness for C2: a genuine edit of cell (0,1) after editing (0,0) and
undoing, on a concrete session. -/
theorem claim2_redo_invalidation_witness :
    (0 < (((⟨demoTable, [], [], 50⟩ : Session).editCell 0 0 "x").undo).table.rowCount ∧
     1 < (((⟨demoTable, [], [], 50⟩ : Session).editCell 0 0 "x").undo).table.ncols ∧
     "y" ≠ (((⟨demoTable, [], [], 50⟩ : Session).editCell 0 0 "x").undo).table.content 0 1) ∧
    ((⟨demoTable, [.insertRow 0], [.insertRow 0], 3⟩ : Session).pushCommand
        (.insertRow 1)).redoStack = [] ∧
      ((((⟨demoTable, [], [], 50⟩ : Session).editCell 0 0 "x").undo).editCell 0 1 "y").redo =
        (((⟨demoTable, [], [], 50⟩ : Session).editCell 0 0 "x").undo).editCell 0 1 "y" :=
  ⟨by decide,
    claim2_redo_invalidation ⟨demoTable, [.insertRow 0], [.insertRow 0], 3⟩ (.insertRow 1)
      ⟨demoTable, [], [], 50⟩ 0 0 0 1 "x" "y" (by decide)⟩

/-- **C3**: after any push/undo/redo both stacks stay within `maxHistory`,
overflow evicts the bottom (oldest) entry; with `maxHistory = 3`, after 5
distinct cell edits only the first 3 undos change the grid and the 2
oldest edits survive. -/
theorem claim3_capacity (s : Session) (cmd : Command)
    (h1 : s.undoStack.length ≤ s.maxHistory)
    (h2 : s.redoStack.length ≤ s.maxHistory) :
    ((s.pushCommand cmd).undoStack.length ≤ s.maxHistory ∧
     (s.pushCommand cmd).redoStack.length ≤ s.maxHistory) ∧
    (s.undo.undoStack.length ≤ s.maxHistory ∧
     s.undo.redoStack.length ≤ s.maxHistory) ∧
    (s.redo.undoStack.length ≤ s.maxHistory ∧
     s.redo.redoStack.length ≤ s.maxHistory) ∧
    (s.undoStack.length = s.maxHistory → s.undoStack ≠ [] →
      (s.pushCommand cmd).undoStack = s.undoStack.tail ++ [cmd]) ∧
    (∀ l c, s.undoStack = l ++ [c] → s.redoStack.length = s.maxHistory →
      s.redoStack ≠ [] → s.undo.redoStack = s.redoStack.tail ++ [c]) ∧
    (let s0 : Session := ⟨demoRow, [], [], 3⟩
     let u1 := (edits5 s0).undo
     let u2 := u1.undo
     let u3 := u2.undo
     let u4 := u3.undo
     let u5 := u4.undo
     u1.table ≠ (edits5 s0).table ∧ u2.table ≠ u1.table ∧ u3.table ≠ u2.table ∧
       u4 = u3 ∧ u5 = u4 ∧
       u5.table.content 0 0 = "v1" ∧ u5.table.content 0 1 = "v2") := by
  refine ⟨?_, ?_, ?_, ?_, ?_, by decide⟩
  · simp only [Session.pushCommand]
    constructor
    · split_ifs with h
      · simp only [List.length_tail, List.length_append, List.length_cons, List.length_nil]
        omega
      · simp only [List.length_append, List.length_cons, List.length_nil] at h ⊢
        omega
    · simp
  · cases hu : s.undoStack.getLast? with
    | none => simp only [Session.undo, hu]; exact ⟨h1, h2⟩
    | some c =>
      simp only [Session.undo, hu]
      constructor
      · simp only [List.length_dropLast]
        omega
      · split_ifs with h
        · simp only [List.length_tail, List.length_append, List.length_cons, List.length_nil]
          omega
        · simp only [List.length_append, List.length_cons, List.length_nil] at h ⊢
          omega
  · cases hr : s.redoStack.getLast? with
    | none => simp only [Session.redo, hr]; exact ⟨h1, h2⟩
    | some c =>
      simp only [Session.redo, hr]
      constructor
      · split_ifs with h
        · simp only [List.length_tail, List.length_append, List.length_cons, List.length_nil]
          omega
        · simp only [List.length_append, List.length_cons, List.length_nil] at h ⊢
          omega
      · simp only [List.length_dropLast]
        omega
  · intro hfull hne
    simp only [Session.pushCommand]
    rw [if_pos (by
      simp only [List.length_append, List.length_cons, List.length_nil]
      omega)]
    exact List.tail_append_singleton_of_ne_nil hne
  · intro l c hl hfull hne
    simp only [Session.undo, hl, List.getLast?_concat]
    rw [if_pos (by
      simp only [List.length_append, List.length_cons, List.length_nil]
      omega)]
    exact List.tail_append_singleton_of_ne_nil hne

/-- A session with both stacks at the capacity bound. -/
def demoFullSession : Session :=
  ⟨demoRow, [.insertRow 0, .insertRow 1, .insertRow 2],
    [.insertRow 0, .insertRow 1, .insertRow 2], 3⟩

/-- A session with empty history. -/
def demoEmptySession : Session := ⟨demoRow, [], [], 3⟩

/-- Witness for C3 on a session whose stacks are exactly full. -/
theorem claim3_capacity_witness :
    demoFullSession.undoStack.length ≤ demoFullSession.maxHistory ∧
    demoFullSession.redoStack.length ≤ demoFullSession.maxHistory ∧
    ((demoFullSession.pushCommand (.insertRow 3)).undoStack.length ≤
        demoFullSession.maxHistory ∧
      (demoFullSession.pushCommand (.insertRow 3)).redoStack.length ≤
        demoFullSession.maxHistory) ∧
    (demoFullSession.pushCommand (.insertRow 3)).undoStack =
      demoFullSession.undoStack.tail ++ [.insertRow 3] ∧
    demoFullSession.undo.redoStack = demoFullSession.redoStack.tail ++ [.insertRow 2] :=
  ⟨by decide, by decide,
    (claim3_capacity demoFullSession (.insertRow 3) (by decide) (by decide)).1,
    (claim3_capacity demoFullSession (.insertRow 3) (by decide)
      (by decide)).2.2.2.1 (by decide) (by decide),
    (claim3_capacity demoFullSession (.insertRow 3) (by decide)
      (by decide)).2.2.2.2.1 [.insertRow 0, .insertRow 1] (.insertRow 2)
      (by decide) (by decide) (by decide)⟩

/-- **C4**: `undo()` is a no-op (grid and both stacks unchanged) when
`undoStack` is empty; otherwise it pops exactly the top command, applies
its backward replay, and pushes it onto `redoStack` under the capacity
rule; `redo()` is symmetric with stacks and replay direction swapped. -/
theorem claim4_undo_redo_mechanics (s : Session) :
    (s.undoStack = [] → s.undo = s) ∧
    (∀ l cmd, s.undoStack = l ++ [cmd] →
      s.undo = { table := cmd.undo s.table, undoStack := l,
                 redoStack :=
                   if s.maxHistory < (s.redoStack ++ [cmd]).length
                   then (s.redoStack ++ [cmd]).tail else s.redoStack ++ [cmd],
                 maxHistory := s.maxHistory }) ∧
    (s.redoStack = [] → s.redo = s) ∧
    (∀ l cmd, s.redoStack = l ++ [cmd] →
      s.redo = { table := cmd.redo s.table,
                 undoStack :=
                   if s.maxHistory < (s.undoStack ++ [cmd]).length
                   then (s.undoStack ++ [cmd]).tail else s.undoStack ++ [cmd],
                 redoStack := l, maxHistory := s.maxHistory }) := by
  refine ⟨?_, ?_, ?_, ?_⟩
  · intro h
    simp [Session.undo, h]
  · intro l cmd hl
    simp only [Session.undo, hl, List.getLast?_concat, List.dropLast_concat]
  · intro h
    simp [Session.redo, h]
  · intro l cmd hl
    simp only [Session.redo, hl, List.getLast?_concat, List.dropLast_concat]

/-- Witness for C4: the no-op case on an empty session and the pop case on
a full one. -/
theorem claim4_undo_redo_mechanics_witness :
    (demoEmptySession.undoStack = [] ∧ demoEmptySession.undo = demoEmptySession) ∧
    (demoFullSession.undoStack = [.insertRow 0, .insertRow 1] ++ [.insertRow 2] ∧
      demoFullSession.undo =
        { table := (Command.insertRow 2).undo demoFullSession.table,
          undoStack := [.insertRow 0, .insertRow 1],
          redoStack :=
            if demoFullSession.maxHistory <
                (demoFullSession.redoStack ++ [Command.insertRow 2]).length
            then (demoFullSession.redoStack ++ [Command.insertRow 2]).tail
            else demoFullSession.redoStack ++ [Command.insertRow 2],
          maxHistory := demoFullSession.maxHistory }) :=
  ⟨⟨by decide, (claim4_undo_redo_mechanics demoEmptySession).1 (by decide)⟩,
    ⟨by decide, (claim4_undo_redo_mechanics demoFullSession).2.1
      [.insertRow 0, .insertRow 1] (.insertRow 2) (by decide)⟩⟩

/-- **C5**: after every selection-tracking operation (single-column press
record, drag selection, select-all) the selection-order list contains no
duplicate column index. -/
theorem claim5_selection_nodup (order : List Nat) (column : Nat) (isSelected : Bool)
    (startCol releaseCol colCount : Nat) (hidden : Nat → Bool)
    (h : order.Nodup) :
    (recordColumnPress order column isSelected).Nodup ∧
    (dragReleaseOrder order startCol releaseCol hidden).Nodup ∧
    (selectAllOrder colCount).Nodup := by
  refine ⟨?_, ?_, List.nodup_range colCount⟩
  · unfold recordColumnPress
    split_ifs with h1 h2
    · exact List.nodup_singleton _
    · exact (h.erase column).append (List.nodup_singleton _)
        (List.disjoint_singleton.2 h.not_mem_erase)
    · exact h.append (List.nodup_singleton _) (List.disjoint_singleton.2 h2)
  · unfold dragReleaseOrder
    split_ifs with h1
    · exact (List.nodup_range' _ _ 1 (by omega)).filter _
    · exact h

/-- Witness for C5 at a concrete nodup order. -/
theorem claim5_selection_nodup_witness :
    ([3, 5] : List Nat).Nodup ∧
      ((recordColumnPress [3, 5] 5 true).Nodup ∧
       (dragReleaseOrder [3, 5] 1 4 (fun _ => false)).Nodup ∧
       (selectAllOrder 6).Nodup) :=
  ⟨by decide, claim5_selection_nodup [3, 5] 5 true 1 4 6 (fun _ => false) (by decide)⟩

/-- **C6**: recording a column selection (a press on a column of the
current selection) appends that column to the tail of the order, moving it
there if already present while keeping all other recorded columns; picking
column 5, then 2, then 5 again yields `currentOrder() = [2, 5]`. -/
theorem claim6_record_move_to_tail (order : List Nat) (column : Nat) :
    recordColumnPress order column true = order.erase column ++ [column] ∧
    (column ∉ order → recordColumnPress order column true = order ++ [column]) ∧
    (∀ b : Bool, getSelectionOrder
        (recordColumnPress (recordColumnPress (recordColumnPress [] 5 b) 2 true) 5 true)
        6 (fun _ => false) = [2, 5]) := by
  have hmain : recordColumnPress order column true = order.erase column ++ [column] := by
    unfold recordColumnPress
    rw [if_neg (by simp)]
    split_ifs with h2
    · rfl
    · rw [List.erase_of_not_mem h2]
  refine ⟨hmain, ?_, ?_⟩
  · intro h
    rw [hmain, List.erase_of_not_mem h]
  · intro b
    cases b <;> decide

/-- Witness for C6: recording column 5 into the order `[3, 2]`, and the
5-then-2-then-5 scenario. -/
theorem claim6_record_move_to_tail_witness :
    (5 : Nat) ∉ ([3, 2] : List Nat) ∧
    recordColumnPress [3, 2] 5 true = [3, 2] ++ [5] ∧
    recordColumnPress [3, 2] 5 true = ([3, 2] : List Nat).erase 5 ++ [5] ∧
    getSelectionOrder
      (recordColumnPress (recordColumnPress (recordColumnPress [] 5 true) 2 true) 5 true)
      6 (fun _ => false) = [2, 5] :=
  ⟨by decide,
    (claim6_record_move_to_tail [3, 2] 5).2.1 (by decide),
    (claim6_record_move_to_tail [3, 2] 5).1,
    (claim6_record_move_to_tail [3, 2] 5).2.2 true⟩

/-! ### Machinery for delete-then-undo restoration (C7) -/

theorem getLast?_capped (maxHistory : Nat) (u : List Command) (cmd : Command)
    (hmax : 0 < maxHistory) :
    (if maxHistory < (u ++ [cmd]).length then (u ++ [cmd]).tail
     else u ++ [cmd]).getLast? = some cmd := by
  split_ifs with h
  · cases u with
    | nil => simp at h; omega
    | cons a u =>
      rw [show ((a :: u) ++ [cmd]).tail = u ++ [cmd] from rfl, List.getLast?_concat]
  · exact List.getLast?_concat _

theorem undo_of_getLast?_some (s : Session) (cmd : Command)
    (h : s.undoStack.getLast? = some cmd) :
    s.undo = { table := cmd.undo s.table, undoStack := s.undoStack.dropLast,
               redoStack := if s.maxHistory < (s.redoStack ++ [cmd]).length
                            then (s.redoStack ++ [cmd]).tail else s.redoStack ++ [cmd],
               maxHistory := s.maxHistory } := by
  simp only [Session.undo, h]

theorem undo_applyCmd_table (s : Session) (cmd : Command) (hmax : 0 < s.maxHistory) :
    ((s.applyCmd cmd).undo).table = cmd.undo (cmd.redo s.table) := by
  rw [undo_of_getLast?_some (s.applyCmd cmd) cmd
    (by simp only [Session.applyCmd, Session.pushCommand]
        exact getLast?_capped _ _ _ hmax)]
  rfl

theorem deleteRowAt_eq (s : Session) (r : Nat) (h : r < s.table.rowCount) :
    s.deleteRowAt r = s.applyCmd (Command.deleteRow r
      ((List.range s.table.ncols).map (fun c => s.table.content r c))) := by
  rw [Session.deleteRowAt, if_pos h]
  rfl

theorem deleteColumnAt_eq (s : Session) (c : Nat) (h : c < s.table.ncols) :
    s.deleteColumnAt c = s.applyCmd (Command.deleteColumn c
      ((List.range s.table.rowCount).map (fun r => s.table.content r c))
      (s.table.headerText c)) := by
  rw [Session.deleteColumnAt, if_pos h]
  rfl

theorem deleteRow_grid_roundtrip (t : Table) (r : Nat) (h : r < t.rowCount) :
    ((Command.deleteRow r ((List.range t.ncols).map (fun c => t.content r c))).undo
        ((Command.deleteRow r ((List.range t.ncols).map (fun c => t.content r c))).redo t)).rowCount
        = t.rowCount ∧
    ((Command.deleteRow r ((List.range t.ncols).map (fun c => t.content r c))).undo
        ((Command.deleteRow r ((List.range t.ncols).map (fun c => t.content r c))).redo t)).ncols
        = t.ncols ∧
    ∀ r' c',
      ((Command.deleteRow r ((List.range t.ncols).map (fun c => t.content r c))).undo
        ((Command.deleteRow r ((List.range t.ncols).map (fun c => t.content r c))).redo t)).content r' c'
        = t.content r' c' := by
  rw [show (Command.deleteRow r ((List.range t.ncols).map (fun c => t.content r c))).redo t
      = t.removeRowAt r from by simp only [Command.redo]; rw [if_pos h]]
  simp only [Command.undo]
  have hw : r ≤ (t.removeRowAt r).rowCount := by
    rw [rowCount_removeRowAt_of_lt t r h]
    omega
  refine ⟨?_, ?_, ?_⟩
  · rw [rowCount_writeRowCells, rowCount_insertRowAt_of_le _ r hw,
      rowCount_removeRowAt_of_lt t r h]
    omega
  · rw [ncols_writeRowCells, ncols_insertRowAt, ncols_removeRowAt]
  · intro r' c'
    rw [content_undoDeleteRow _ r _ hw]
    by_cases hlt : r' < r
    · rw [if_pos hlt, content_removeRowAt t r h, if_pos hlt]
    · rw [if_neg hlt]
      by_cases heq : r' = r
      · rw [if_pos heq]
        subst heq
        by_cases hcc : c' < ((List.range t.ncols).map (fun c => t.content r' c)).length ∧
            c' < (t.removeRowAt r').ncols
        · rw [if_pos hcc, lget_range_map _ _ _ (by simpa using hcc.1)]
        · rw [if_neg hcc]
          rw [(t.content_out_of_range r' c' (by
            simp only [List.length_map, List.length_range, ncols_removeRowAt] at hcc
            omega)).symm]
      · rw [if_neg heq, content_removeRowAt t r h, if_neg (by omega)]
        congr 1
        omega

theorem deleteColumn_grid_roundtrip (t : Table) (c : Nat) (h : c < t.ncols) :
    ((Command.deleteColumn c ((List.range t.rowCount).map (fun r => t.content r c))
        (t.headerText c)).undo
      ((Command.deleteColumn c ((List.range t.rowCount).map (fun r => t.content r c))
        (t.headerText c)).redo t)).rowCount = t.rowCount ∧
    ((Command.deleteColumn c ((List.range t.rowCount).map (fun r => t.content r c))
        (t.headerText c)).undo
      ((Command.deleteColumn c ((List.range t.rowCount).map (fun r => t.content r c))
        (t.headerText c)).redo t)).ncols = t.ncols ∧
    (∀ r' c',
      ((Command.deleteColumn c ((List.range t.rowCount).map (fun r => t.content r c))
          (t.headerText c)).undo
        ((Command.deleteColumn c ((List.range t.rowCount).map (fun r => t.content r c))
          (t.headerText c)).redo t)).content r' c' = t.content r' c') ∧
    (∀ c',
      ((Command.deleteColumn c ((List.range t.rowCount).map (fun r => t.content r c))
          (t.headerText c)).undo
        ((Command.deleteColumn c ((List.range t.rowCount).map (fun r => t.content r c))
          (t.headerText c)).redo t)).headerText c' = t.headerText c') := by
  rw [show (Command.deleteColumn c ((List.range t.rowCount).map (fun r => t.content r c))
      (t.headerText c)).redo t = t.removeColumnAt c from by
    simp only [Command.redo]; rw [if_pos h]]
  simp only [Command.undo]
  have hw : c ≤ (t.removeColumnAt c).ncols := by
    rw [ncols_removeColumnAt_of_lt t c h]
    omega
  have hnc : ((t.removeColumnAt c).insertColumnAt c).ncols = t.ncols := by
    rw [ncols_insertColumnAt_of_le _ c hw, ncols_removeColumnAt_of_lt t c h]
    omega
  refine ⟨?_, ?_, ?_, ?_⟩
  · rw [rowCount_writeColCells, rowCount_setHeaderItem, rowCount_insertColumnAt,
      rowCount_removeColumnAt]
  · rw [ncols_writeColCells, ncols_setHeaderItem, ncols_insertColumnAt_of_le _ c hw,
      ncols_removeColumnAt_of_lt t c h]
    omega
  · intro r' c'
    rw [content_undoDeleteColumn _ c _ _ hw]
    by_cases hlt : c' < c
    · rw [if_pos hlt, content_removeColumnAt t c h, if_pos hlt]
    · rw [if_neg hlt]
      by_cases heq : c' = c
      · rw [if_pos heq]
        subst heq
        by_cases hrr : r' < ((List.range t.rowCount).map (fun r => t.content r c')).length ∧
            r' < (t.removeColumnAt c').rowCount
        · rw [if_pos hrr, lget_range_map _ _ _ (by simpa using hrr.1)]
        · rw [if_neg hrr]
          rw [(t.content_out_of_range r' c' (by
            simp only [List.length_map, List.length_range, rowCount_removeColumnAt] at hrr
            omega)).symm]
      · rw [if_neg heq, content_removeColumnAt t c h, if_neg (by omega)]
        congr 1
        omega
  · intro c'
    rw [show (writeColCells (((t.removeColumnAt c).insertColumnAt c).setHeaderItem c
        (t.headerText c)) c 0 ((List.range t.rowCount).map (fun r => t.content r c))).headerText c'
        = match (writeColCells (((t.removeColumnAt c).insertColumnAt c).setHeaderItem c
            (t.headerText c)) c 0
            ((List.range t.rowCount).map (fun r => t.content r c))).headerItem c' with
          | some s => s
          | none => "列" ++ toString (c' + 1) from rfl]
    rw [headerItem_writeColCells, headerItem_setHeaderItem]
    by_cases heq : c' = c
    · rw [if_pos ⟨heq, by rw [hnc]; omega⟩, heq]
    · rw [if_neg (by tauto), headerItem_insertColumnAt _ c hw c']
      by_cases hlt : c' < c
      · rw [if_pos hlt, headerItem_removeColumnAt t c h, if_pos hlt]
        rfl
      · rw [if_neg hlt, if_neg heq, headerItem_removeColumnAt t c h, if_neg (by omega)]
        rw [show c' - 1 + 1 = c' from by omega]
        rfl

/-- **C7**: deleting an in-range row or column and then calling `undo()`
restores every cell value verbatim (and, for a column, the header text),
with the line re-inserted at its original index — dimensions and all
contents return to their pre-delete values. -/
theorem claim7_delete_undo_restores (s : Session) (r c : Nat) (hmax : 0 < s.maxHistory) :
    (r < s.table.rowCount →
      ((s.deleteRowAt r).undo.table.rowCount = s.table.rowCount ∧
       (s.deleteRowAt r).undo.table.ncols = s.table.ncols ∧
       ∀ r' c', (s.deleteRowAt r).undo.table.content r' c' = s.table.content r' c')) ∧
    (c < s.table.ncols →
      ((s.deleteColumnAt c).undo.table.rowCount = s.table.rowCount ∧
       (s.deleteColumnAt c).undo.table.ncols = s.table.ncols ∧
       (∀ r' c', (s.deleteColumnAt c).undo.table.content r' c' = s.table.content r' c') ∧
       ∀ c', (s.deleteColumnAt c).undo.table.headerText c' = s.table.headerText c')) := by
  constructor
  · intro hr
    rw [deleteRowAt_eq s r hr, undo_applyCmd_table s _ hmax]
    exact deleteRow_grid_roundtrip s.table r hr
  · intro hc
    rw [deleteColumnAt_eq s c hc, undo_applyCmd_table s _ hmax]
    exact deleteColumn_grid_roundtrip s.table c hc

/-- Witness for C7 on the demo grid: delete row 0 / column 0 and undo. -/
theorem claim7_delete_undo_restores_witness :
    0 < (50 : Nat) ∧ 0 < demoTable.rowCount ∧ 0 < demoTable.ncols ∧
    (((⟨demoTable, [], [], 50⟩ : Session).deleteRowAt 0).undo.table.rowCount
        = demoTable.rowCount ∧
      ((⟨demoTable, [], [], 50⟩ : Session).deleteRowAt 0).undo.table.content 0 1
        = demoTable.content 0 1) ∧
    (((⟨demoTable, [], [], 50⟩ : Session).deleteColumnAt 0).undo.table.ncols
        = demoTable.ncols ∧
      ((⟨demoTable, [], [], 50⟩ : Session).deleteColumnAt 0).undo.table.headerText 0
        = demoTable.headerText 0) :=
  ⟨by decide, by decide, by decide,
    ⟨((claim7_delete_undo_restores ⟨demoTable, [], [], 50⟩ 0 0 (by decide)).1
        (by decide)).1,
      ((claim7_delete_undo_restores ⟨demoTable, [], [], 50⟩ 0 0 (by decide)).1
        (by decide)).2.2 0 1⟩,
    ⟨((claim7_delete_undo_restores ⟨demoTable, [], [], 50⟩ 0 0 (by decide)).2
        (by decide)).2.1,
      ((claim7_delete_undo_restores ⟨demoTable, [], [], 50⟩ 0 0 (by decide)).2
        (by decide)).2.2.2 0⟩⟩

theorem pasteAt_eq (s : Session) (sr sc : Nat) (text : String)
    (ht : text ≠ "") (hrows : parsePaste text ≠ []) :
    s.pasteAt sr sc text = s.applyCmd (Command.paste sr sc
      (buildOld s.table sr sc (parsePaste text)) (parsePaste text)) := by
  simp only [Session.pasteAt]
  rw [if_neg ht, if_neg hrows]
  rfl

/-- **C8**: a paste grows `rowCount`/`colCount` to fit every cell of the
block, and the subsequent `undo()` restores the original values of every
cell of the pre-paste in-bounds region while leaving the grown dimensions
in place (the grid does not shrink back). -/
theorem claim8_paste_growth_asymmetry (s : Session) (sr sc : Nat) (text : String)
    (ht : text ≠ "") (hrows : parsePaste text ≠ []) (hmax : 0 < s.maxHistory)
    (_hgrow : s.table.rowCount < sr + (parsePaste text).length ∨
      s.table.ncols < sc + (lget (parsePaste text) 0 []).length) :
    (∀ i j, i < (parsePaste text).length → j < (lget (parsePaste text) i []).length →
      sr + i < (s.pasteAt sr sc text).table.rowCount ∧
        sc + j < (s.pasteAt sr sc text).table.ncols) ∧
    (∀ r' c', r' < s.table.rowCount → c' < s.table.ncols →
      (s.pasteAt sr sc text).undo.table.content r' c' = s.table.content r' c') ∧
    (s.pasteAt sr sc text).undo.table.rowCount = (s.pasteAt sr sc text).table.rowCount ∧
    (s.pasteAt sr sc text).undo.table.ncols = (s.pasteAt sr sc text).table.ncols := by
  rw [pasteAt_eq s sr sc text ht hrows]
  have htab : (s.applyCmd (Command.paste sr sc
      (buildOld s.table sr sc (parsePaste text)) (parsePaste text))).table
      = pasteRedo s.table sr sc (parsePaste text) := rfl
  have hundo := undo_applyCmd_table s (Command.paste sr sc
      (buildOld s.table sr sc (parsePaste text)) (parsePaste text)) hmax
  refine ⟨?_, ?_, ?_, ?_⟩
  · intro i j hi hj
    rw [htab]
    exact pasteRedo_inbounds s.table sr sc (parsePaste text) i j hi hj
  · intro r' c' _ _
    rw [hundo]
    exact (undo_sim_paste sr sc _ (parsePaste text) s.table _ rfl
      (dominates_refl _)).2.2 r' c'
  · rw [hundo, htab]
    simp only [Command.undo]
    rw [rowCount_pasteUndo]
    rfl
  · rw [hundo, htab]
    simp only [Command.undo]
    rw [ncols_pasteUndo]
    rfl

/-- Witness for C8: pasting a 3×3 block at (0,0) of the 2×2 demo grid. -/
theorem claim8_paste_growth_asymmetry_witness :
    ("1\t2\t3\n4\t5\t6\n7\t8\t9" : String) ≠ "" ∧
    parsePaste "1\t2\t3\n4\t5\t6\n7\t8\t9" ≠ [] ∧
    demoTable.rowCount < 0 + (parsePaste "1\t2\t3\n4\t5\t6\n7\t8\t9").length ∧
    (2 < (parsePaste "1\t2\t3\n4\t5\t6\n7\t8\t9").length →
      2 < (lget (parsePaste "1\t2\t3\n4\t5\t6\n7\t8\t9") 2 []).length →
      0 + 2 < (((⟨demoTable, [], [], 50⟩ : Session).pasteAt 0 0
          "1\t2\t3\n4\t5\t6\n7\t8\t9").table).rowCount ∧
        0 + 2 < (((⟨demoTable, [], [], 50⟩ : Session).pasteAt 0 0
          "1\t2\t3\n4\t5\t6\n7\t8\t9").table).ncols) ∧
    (1 < demoTable.rowCount → 1 < demoTable.ncols →
      (((⟨demoTable, [], [], 50⟩ : Session).pasteAt 0 0
          "1\t2\t3\n4\t5\t6\n7\t8\t9").undo).table.content 1 1
        = demoTable.content 1 1) ∧
    (((⟨demoTable, [], [], 50⟩ : Session).pasteAt 0 0
        "1\t2\t3\n4\t5\t6\n7\t8\t9").undo).table.rowCount =
      (((⟨demoTable, [], [], 50⟩ : Session).pasteAt 0 0
        "1\t2\t3\n4\t5\t6\n7\t8\t9").table).rowCount :=
  ⟨by decide, by decide, by decide,
    (claim8_paste_growth_asymmetry ⟨demoTable, [], [], 50⟩ 0 0 _
      (by decide) (by decide) (by decide) (Or.inl (by decide))).1 2 2,
    fun h1 h2 => (claim8_paste_growth_asymmetry ⟨demoTable, [], [], 50⟩ 0 0 _
      (by decide) (by decide) (by decide) (Or.inl (by decide))).2.1 1 1 h1 h2,
    (claim8_paste_growth_asymmetry ⟨demoTable, [], [], 50⟩ 0 0 _
      (by decide) (by decide) (by decide) (Or.inl (by decide))).2.2.1⟩

/-! ### Paste parsing facts (C9) -/

theorem splitOnChar_ne_nil (sep : Char) (l : List Char) : splitOnChar sep l ≠ [] := by
  cases l with
  | nil => simp [splitOnChar]
  | cons a rest =>
    simp only [splitOnChar]
    split_ifs
    · simp
    · split <;> simp

theorem splitOnChar_append_sep (sep : Char) (l : List Char) :
    splitOnChar sep (l ++ [sep]) = splitOnChar sep l ++ [[]] := by
  induction l with
  | nil => simp [splitOnChar]
  | cons a rest ih =>
    simp only [List.cons_append, splitOnChar]
    have ih' : splitOnChar sep (rest.append [sep]) = splitOnChar sep rest ++ [[]] := ih
    split_ifs with h
    · rw [ih']
      rfl
    · rw [ih']
      cases hrest : splitOnChar sep rest with
      | nil => exact absurd hrest (splitOnChar_ne_nil sep rest)
      | cons g gs => rfl

/-- An all-"z" 2×2 grid. -/
def demoZTable : Table :=
  { cells := [[some "z", some "z"], [some "z", some "z"]],
    headers := [none, none], ncols := 2 }

/-- Counterexample to C9 as stated: pasting the ragged block
`"a\tb\nc"` at (0,0) of an all-"z" 2×2 grid leaves the cell (1,1) — which
has no corresponding entry in the short second row — holding `"z"`; the
missing cell is left untouched, not treated as empty. -/
theorem claim9_missing_cell_not_emptied :
    ((⟨demoZTable, [], [], 50⟩ : Session).pasteAt 0 0 "a\tb\nc").table.content 1 1
        = "z" ∧ ("z" : String) ≠ "" := by
  constructor
  · decide
  · decide

/-- **C9 (amended)**: paste parses the text as newline-delimited rows of
tab-delimited cells, exactly one trailing empty line (from a trailing
newline) is dropped, each parsed cell `(i, j)` is written at
`(startRow+i, startCol+j)`, ragged rows are accepted cell-by-cell, and
every other cell — beyond the block or missing from a short row — is left
untouched rather than being cleared or rejected. -/
theorem claim9_paste_parsing (s : Session) (sr sc : Nat) (text : String)
    (ht : text ≠ "") (hrows : parsePaste text ≠ []) :
    (parsePaste (text ++ "\n") =
      (splitOnChar '\n' text.data).map
        (fun row => (splitOnChar '\t' row).map (fun cs => String.mk cs))) ∧
    (∀ i j, i < (parsePaste text).length → j < (lget (parsePaste text) i []).length →
      (s.pasteAt sr sc text).table.content (sr + i) (sc + j)
        = lget (lget (parsePaste text) i []) j "") ∧
    (∀ r' c', ¬ (sr ≤ r' ∧ r' - sr < (parsePaste text).length ∧ sc ≤ c' ∧
        c' - sc < (lget (parsePaste text) (r' - sr) []).length) →
      (s.pasteAt sr sc text).table.content r' c' = s.table.content r' c') := by
  refine ⟨?_, ?_, ?_⟩
  · unfold parsePaste
    rw [String.data_append]
    rw [show ("\n" : String).data = ['\n'] from rfl]
    rw [splitOnChar_append_sep]
    dsimp only
    rw [if_pos ⟨by simp, List.getLast?_concat _⟩]
    rw [List.dropLast_concat]
  · intro i j hi hj
    rw [pasteAt_eq s sr sc text ht hrows]
    exact content_pasteRedo_written s.table sr sc (parsePaste text) i j hi hj
  · intro r' c' hout
    rw [pasteAt_eq s sr sc text ht hrows]
    exact content_pasteRedo_untouched s.table sr sc (parsePaste text) r' c' hout

/-- Witness for the amended C9 on the counterexample input. -/
theorem claim9_paste_parsing_witness :
    ("a\tb\nc" : String) ≠ "" ∧ parsePaste "a\tb\nc" ≠ [] ∧
    (0 < (parsePaste "a\tb\nc").length → 1 < (lget (parsePaste "a\tb\nc") 0 []).length →
      ((⟨demoZTable, [], [], 50⟩ : Session).pasteAt 0 0 "a\tb\nc").table.content (0 + 0) (0 + 1)
        = lget (lget (parsePaste "a\tb\nc") 0 []) 1 "") ∧
    (¬ ((0 : Nat) ≤ 1 ∧ 1 - 0 < (parsePaste "a\tb\nc").length ∧ (0 : Nat) ≤ 1 ∧
        1 - 0 < (lget (parsePaste "a\tb\nc") (1 - 0) []).length) →
      ((⟨demoZTable, [], [], 50⟩ : Session).pasteAt 0 0 "a\tb\nc").table.content 1 1
        = demoZTable.content 1 1) :=
  ⟨by decide, by decide,
    (claim9_paste_parsing ⟨demoZTable, [], [], 50⟩ 0 0 "a\tb\nc"
      (by decide) (by decide)).2.1 0 1,
    (claim9_paste_parsing ⟨demoZTable, [], [], 50⟩ 0 0 "a\tb\nc"
      (by decide) (by decide)).2.2 1 1⟩

/-- **C10**: replay is internally guarded: when a command's stored index
lies outside the current grid bounds, CellChange undo and redo,
InsertRow/InsertColumn undo (the removal direction) and
DeleteRow/DeleteColumn redo (the removal direction) leave the grid
unchanged; the replay functions are total, so they return normally. -/
theorem claim10_guarded_replay (t : Table) (r c : Nat) (old new : String)
    (data : List String) (hdr : String) :
    (¬ (r < t.rowCount ∧ c < t.ncols) →
      (Command.cellChange r c old new).undo t = t ∧
      (Command.cellChange r c old new).redo t = t) ∧
    (t.rowCount ≤ r →
      (Command.insertRow r).undo t = t ∧ (Command.deleteRow r data).redo t = t) ∧
    (t.ncols ≤ c →
      (Command.insertColumn c).undo t = t ∧
      (Command.deleteColumn c data hdr).redo t = t) := by
  refine ⟨?_, ?_, ?_⟩
  · intro h
    constructor <;>
      (simp only [Command.undo, Command.redo, Table.setCell]; rw [if_neg h])
  · intro h
    constructor <;>
      (simp only [Command.undo, Command.redo]; rw [if_neg (by omega)])
  · intro h
    constructor <;>
      (simp only [Command.undo, Command.redo]; rw [if_neg (by omega)])

/-- Witness for C10: indices 5 and 7 are out of range on the 2×2 demo
grid. -/
theorem claim10_guarded_replay_witness :
    (¬ ((5 : Nat) < demoTable.rowCount ∧ (7 : Nat) < demoTable.ncols)) ∧
    demoTable.rowCount ≤ 5 ∧ demoTable.ncols ≤ 7 ∧
    (Command.cellChange 5 7 "o" "n").undo demoTable = demoTable ∧
    (Command.insertRow 5).undo demoTable = demoTable ∧
    (Command.deleteRow 5 ["x"]).redo demoTable = demoTable ∧
    (Command.insertColumn 7).undo demoTable = demoTable ∧
    (Command.deleteColumn 7 ["x"] "H").redo demoTable = demoTable :=
  ⟨by decide, by decide, by decide,
    ((claim10_guarded_replay demoTable 5 7 "o" "n" ["x"] "H").1 (by decide)).1,
    ((claim10_guarded_replay demoTable 5 7 "o" "n" ["x"] "H").2.1 (by decide)).1,
    ((claim10_guarded_replay demoTable 5 7 "o" "n" ["x"] "H").2.1 (by decide)).2,
    ((claim10_guarded_replay demoTable 5 7 "o" "n" ["x"] "H").2.2 (by decide)).1,
    ((claim10_guarded_replay demoTable 5 7 "o" "n" ["x"] "H").2.2 (by decide)).2⟩

end CsvDataTools
